import Mathlib

/-!
# Lookup tables of maxpluslib (`include/maxplus/base/lookup/clookup.h`)

A shallow embedding of the four lookup classes `CLookupPtr<T>`, `CLookupInt`,
`CLookupIntInt` and `CLookupAny<T>` together with their iterators.

* Pointers (`void*`, `T*`) are natural numbers, `NULL` is `0`.
* A `std::unordered_map` is an association list. The order of the list stands for
  the (unspecified, but stable while the map is not modified) iteration order of the
  hash map.
* `new` and `delete` act on an explicit heap that is threaded through every method
  that allocates or releases. The heap keeps a log of every release.
* Reference parameters of `next` become components of the returned tuple.
* The strategy vector (`game/strategyvector.h`) is not among the sources at hand; its
  two operations are modelled from the specification and marked as such.
-/

namespace CLookup

/-- Addresses: the values of `void*` and `T*`. -/
abbrev Ptr := Nat

/-- The null pointer. -/
def NULL : Ptr := 0

/-! ## `std::unordered_map` -/

namespace UMap

variable {K V : Type} [DecidableEq K]

/-- Model of `m.find(key)`: the mapped value of the entry, `none` for `m.end()`. -/
def find : List (K × V) → K → Option V
  | [], _ => none
  | (k, v) :: rest, key => if k = key then some v else find rest key

/-- Model of `(*foundPointer).second = value`, where `foundPointer = m.find(key)`. -/
def setSecond : List (K × V) → K → V → List (K × V)
  | [], _, _ => []
  | (k, v) :: rest, key, value =>
    if k = key then (k, value) :: rest else (k, v) :: setSecond rest key value

/-- Model of `m[key] = value`: a new entry when the key is absent, otherwise the
mapped value of the existing entry is overwritten. -/
def assign (m : List (K × V)) (key : K) (value : V) : List (K × V) :=
  match find m key with
  | none => m ++ [(key, value)]
  | some _ => setSecond m key value

end UMap

/-! ## The heap: `new`, `delete`, `*p` -/

/-- The free store holding objects of type `T`. `brk` is the highest address handed
out so far, `cells` the live objects, `freed` the log of releases, oldest first. -/
structure Heap (T : Type) where
  brk : Nat
  cells : List (Ptr × T)
  freed : List Ptr
  deriving DecidableEq, Repr

namespace Heap

variable {T : Type}

/-- Model of `new T`: a default-constructed object at an address never handed out. -/
def new [Inhabited T] (h : Heap T) : Ptr × Heap T :=
  (h.brk + 1, { h with brk := h.brk + 1, cells := (h.brk + 1, default) :: h.cells })

/-- Model of reading `*p`; `none` when `p` is not a live object. -/
def read (h : Heap T) (p : Ptr) : Option T :=
  UMap.find h.cells p

/-- Model of `*p = v`. -/
def write (h : Heap T) (p : Ptr) (v : T) : Heap T :=
  { h with cells := UMap.setSecond h.cells p v }

/-- Model of `delete p`: no effect on the null pointer, otherwise the object is
destroyed and the release is logged; releasing an address again is logged again. -/
def delete (h : Heap T) (p : Ptr) : Heap T :=
  if p = NULL then h
  else { h with cells := h.cells.filter (fun c => c.1 ≠ p), freed := h.freed ++ [p] }

end Heap

/-! ## `CLookupPtr<T>` -/

/-- The type `CLOOKUP_MAP_VOID`. -/
abbrev CLOOKUP_MAP_VOID := List (Ptr × Ptr)

/-- The data members of `CLookupPtr<T>`. -/
structure CLookupPtr where
  m_impl : CLOOKUP_MAP_VOID
  m_freePointers : Bool
  deriving DecidableEq, Repr

namespace CLookupPtr

variable {T : Type}

/-- The constructor `CLookupPtr(bool freePointers)`. -/
def ctor (freePointers : Bool) : CLookupPtr :=
  { m_impl := [], m_freePointers := freePointers }

/-- The method `T *get(void *key) const`. -/
def get (s : CLookupPtr) (key : Ptr) : Ptr :=
  match UMap.find s.m_impl key with
  | none => NULL
  | some value => value

/-- The method `T *getOrCreate(void *key)`. -/
def getOrCreate [Inhabited T] (s : CLookupPtr) (h : Heap T) (key : Ptr) :
    Ptr × CLookupPtr × Heap T :=
  match UMap.find s.m_impl key with
  | none =>
    let r := h.new
    (r.1, { s with m_impl := UMap.assign s.m_impl key r.1 }, r.2)
  | some value => (value, s, h)

/-- The method `void put(void *key, T *value)`. -/
def put (s : CLookupPtr) (h : Heap T) (key : Ptr) (value : Ptr) : CLookupPtr × Heap T :=
  match UMap.find s.m_impl key with
  | none => ({ s with m_impl := UMap.assign s.m_impl key value }, h)
  | some old =>
    ({ s with m_impl := UMap.setSecond s.m_impl key value },
      if s.m_freePointers then h.delete old else h)

/-- The iterator `CLookupPtr<T>::CIterator`: `m_iterator` is the part of the map
that has not been visited yet, the empty list being `m_impl.end()`. -/
structure CIterator where
  m_lookup : CLookupPtr
  m_iterator : CLOOKUP_MAP_VOID
  deriving DecidableEq, Repr

namespace CIterator

/-- The constructor `CIterator(const CLookupPtr<T>* lookup)`. -/
def ctor (lookup : CLookupPtr) : CIterator :=
  { m_lookup := lookup, m_iterator := lookup.m_impl }

/-- The method `bool next(void*& key, T*& value)`: the returned flag, the two
outputs and the advanced iterator. -/
def next (it : CIterator) : Bool × Ptr × Ptr × CIterator :=
  match it.m_iterator with
  | (k, v) :: rest => (true, k, v, { it with m_iterator := rest })
  | [] => (false, NULL, NULL, it)

/-- The method `void reset()`. -/
def reset (it : CIterator) : CIterator :=
  { it with m_iterator := it.m_lookup.m_impl }

end CIterator

/-- The loop `while (iterator.next(key, value)) delete value;` of the destructor,
bounded by `fuel` calls of `next`; `none` when the bound is reached. -/
def destroyLoop : Nat → CIterator → Heap T → Option (Heap T)
  | 0, _, _ => none
  | fuel + 1, it, h =>
    match it.next with
    | (true, _, value, it1) => destroyLoop fuel it1 (h.delete value)
    | (false, _, _, _) => some h

/-- The destructor `~CLookupPtr()`, run with `fuel` calls of `next` at most. -/
def dtor (fuel : Nat) (s : CLookupPtr) (h : Heap T) : Option (Heap T) :=
  if s.m_freePointers then destroyLoop fuel (CIterator.ctor s) h else some h

end CLookupPtr

/-- The method `bool exists(void *key) const` of `CLookupPtr<T>`. -/
def CLookupPtr.exists (s : CLookupPtr) (key : Ptr) : Bool :=
  match UMap.find s.m_impl key with
  | none => false
  | some _ => true

namespace CLookupPtr

variable {T : Type}

/-- A client loop `while (it.next(key, value)) { ... }` that collects the pairs it is
given, bounded by `fuel` calls of `next`; `none` when the bound is reached. -/
def CIterator.drain : Nat → CIterator → Option (List (Ptr × Ptr))
  | 0, _ => none
  | fuel + 1, it =>
    match it.next with
    | (true, k, v, it1) => (drain fuel it1).map (fun l => (k, v) :: l)
    | (false, _, _, _) => some []

/-- The iterator after `n` calls of `next`. -/
def CIterator.advance : Nat → CIterator → CIterator
  | 0, it => it
  | n + 1, it => advance n it.next.2.2.2

/-- A call of one of the public methods of `CLookupPtr<T>`. -/
inductive Call where
  | get_ (key : Ptr)
  | getOrCreate_ (key : Ptr)
  | put_ (key : Ptr) (value : Ptr)
  | exists_ (key : Ptr)
  deriving DecidableEq, Repr

/-- What a call returns. -/
inductive Ret where
  | ptr (p : Ptr)
  | flag (b : Bool)
  | void
  deriving DecidableEq, Repr

/-- One method call on a store living in a heap: the returned value and the store
and heap after the call. -/
def call [Inhabited T] (st : CLookupPtr × Heap T) : Call → Ret × (CLookupPtr × Heap T)
  | .get_ key => (.ptr (st.1.get key), st)
  | .getOrCreate_ key =>
    let r := st.1.getOrCreate st.2 key
    (.ptr r.1, r.2)
  | .put_ key value => (.void, st.1.put st.2 key value)
  | .exists_ key => (.flag (st.1.exists key), st)

/-- A sequence of method calls, first call first. -/
def run [Inhabited T] (st : CLookupPtr × Heap T) : List Call → CLookupPtr × Heap T
  | [] => st
  | c :: cs => run (call st c).2 cs

end CLookupPtr

/-! ## `CLookupInt` -/

/-- The type `CLOOKUP_MAP_INT`. -/
abbrev CLOOKUP_MAP_INT := List (Ptr × Int)

/-- The data members of `CLookupInt`. -/
structure CLookupInt where
  m_impl : CLOOKUP_MAP_INT
  deriving DecidableEq, Repr

namespace CLookupInt

/-- The implicit default constructor: an empty map. -/
def ctor : CLookupInt := { m_impl := [] }

/-- The method `int get(void *key) const`. -/
def get (s : CLookupInt) (key : Ptr) : Int :=
  match UMap.find s.m_impl key with
  | none => 0
  | some value => value

/-- The method `void put(void *key, int value)`. -/
def put (s : CLookupInt) (key : Ptr) (value : Int) : CLookupInt :=
  { m_impl := UMap.assign s.m_impl key value }

/-- The iterator `CLookupInt::CIterator`. -/
structure CIterator where
  m_lookup : CLookupInt
  m_iterator : CLOOKUP_MAP_INT
  deriving DecidableEq, Repr

namespace CIterator

/-- The constructor `CIterator(const CLookupInt *lookup)`. -/
def ctor (lookup : CLookupInt) : CIterator :=
  { m_lookup := lookup, m_iterator := lookup.m_impl }

/-- The method `bool next(void*& key, int &value)`. -/
def next (it : CIterator) : Bool × Ptr × Int × CIterator :=
  match it.m_iterator with
  | (k, v) :: rest => (true, k, v, { it with m_iterator := rest })
  | [] => (false, NULL, 0, it)

/-- The method `void reset()`. -/
def reset (it : CIterator) : CIterator :=
  { it with m_iterator := it.m_lookup.m_impl }

/-- A client loop collecting the pairs, bounded by `fuel` calls of `next`. -/
def drain : Nat → CIterator → Option (List (Ptr × Int))
  | 0, _ => none
  | fuel + 1, it =>
    match it.next with
    | (true, k, v, it1) => (drain fuel it1).map (fun l => (k, v) :: l)
    | (false, _, _, _) => some []

/-- The iterator after `n` calls of `next`. -/
def advance : Nat → CIterator → CIterator
  | 0, it => it
  | n + 1, it => advance n it.next.2.2.2

end CIterator

/-- A sequence of `put` calls, first call first. -/
def putAll (s : CLookupInt) : List (Ptr × Int) → CLookupInt
  | [] => s
  | (k, v) :: ps => putAll (s.put k v) ps

end CLookupInt

/-- The method `bool exists(void *key) const` of `CLookupInt`. -/
def CLookupInt.exists (s : CLookupInt) (key : Ptr) : Bool :=
  match UMap.find s.m_impl key with
  | none => false
  | some _ => true

/-! ## `CLookupIntInt` -/

/-- The type `CLOOKUP_MAP_INT_INT`. -/
abbrev CLOOKUP_MAP_INT_INT := List (Int × Int)

/-- The data members of `CLookupIntInt`. -/
structure CLookupIntInt where
  m_impl : CLOOKUP_MAP_INT_INT
  deriving DecidableEq, Repr

namespace CLookupIntInt

/-- The implicit default constructor: an empty map. -/
def ctor : CLookupIntInt := { m_impl := [] }

/-- The method `int get(int key) const`. -/
def get (s : CLookupIntInt) (key : Int) : Int :=
  match UMap.find s.m_impl key with
  | none => -1
  | some value => value

/-- The method `void put(int key, int value)`. -/
def put (s : CLookupIntInt) (key : Int) (value : Int) : CLookupIntInt :=
  { m_impl := UMap.assign s.m_impl key value }

/-- The iterator `CLookupIntInt::CIterator`. -/
structure CIterator where
  m_lookup : CLookupIntInt
  m_iterator : CLOOKUP_MAP_INT_INT
  deriving DecidableEq, Repr

namespace CIterator

/-- The constructor `CIterator(const CLookupIntInt *lookup)`. -/
def ctor (lookup : CLookupIntInt) : CIterator :=
  { m_lookup := lookup, m_iterator := lookup.m_impl }

/-- The method `bool next(int& key, int &value)`. -/
def next (it : CIterator) : Bool × Int × Int × CIterator :=
  match it.m_iterator with
  | (k, v) :: rest => (true, k, v, { it with m_iterator := rest })
  | [] => (false, 0, 0, it)

/-- The method `void reset()`. -/
def reset (it : CIterator) : CIterator :=
  { it with m_iterator := it.m_lookup.m_impl }

/-- A client loop collecting the pairs, bounded by `fuel` calls of `next`. -/
def drain : Nat → CIterator → Option (List (Int × Int))
  | 0, _ => none
  | fuel + 1, it =>
    match it.next with
    | (true, k, v, it1) => (drain fuel it1).map (fun l => (k, v) :: l)
    | (false, _, _, _) => some []

/-- The iterator after `n` calls of `next`. -/
def advance : Nat → CIterator → CIterator
  | 0, it => it
  | n + 1, it => advance n it.next.2.2.2

end CIterator

/-- A sequence of `put` calls, first call first. -/
def putAll (s : CLookupIntInt) : List (Int × Int) → CLookupIntInt
  | [] => s
  | (k, v) :: ps => putAll (s.put k v) ps

end CLookupIntInt

/-- The method `bool exists(int key) const` of `CLookupIntInt`. -/
def CLookupIntInt.exists (s : CLookupIntInt) (key : Int) : Bool :=
  match UMap.find s.m_impl key with
  | none => false
  | some _ => true

/-! ## `CLookupAny<T>` -/

/-- The data members of `CLookupAny<T>`. -/
structure CLookupAny (T : Type) where
  m_lookup_ptr : CLookupPtr
  m_default_value : T
  deriving DecidableEq, Repr

namespace CLookupAny

variable {T : Type}

/-- The constructor `CLookupAny(T default_value)`. -/
def ctor (default_value : T) : CLookupAny T :=
  { m_lookup_ptr := CLookupPtr.ctor true, m_default_value := default_value }

/-- The method `const T get(void *key) const`: the returned copy (`none` if the
pointer read is not a live object), and the store and heap after the call. -/
def get [Inhabited T] (s : CLookupAny T) (h : Heap T) (key : Ptr) :
    Option T × CLookupAny T × Heap T :=
  let ptr := s.m_lookup_ptr.get key
  if ptr = NULL then
    let r := h.new
    let h1 := r.2.write r.1 s.m_default_value
    let r2 := s.m_lookup_ptr.put h1 key r.1
    (r2.2.read r.1, { s with m_lookup_ptr := r2.1 }, r2.2)
  else (h.read ptr, s, h)

/-- The method `void put(void *key, T value)`. -/
def put [Inhabited T] (s : CLookupAny T) (h : Heap T) (key : Ptr) (value : T) :
    CLookupAny T × Heap T :=
  let r := h.new
  let h1 := r.2.write r.1 value
  let r2 := s.m_lookup_ptr.put h1 key r.1
  ({ s with m_lookup_ptr := r2.1 }, r2.2)

/-- The iterator `CLookupAny<T>::CIterator`, derived from the iterator of
`CLookupPtr<T>`. -/
structure CIterator (T : Type) where
  toBase : CLookupPtr.CIterator
  m_default_value : T
  deriving DecidableEq, Repr

namespace CIterator

/-- The constructor `CIterator(const CLookupAny *lookup)`. -/
def ctor (lookup : CLookupAny T) : CIterator T :=
  { toBase := CLookupPtr.CIterator.ctor lookup.m_lookup_ptr,
    m_default_value := lookup.m_default_value }

/-- The method `bool next(void*& key, T &value)`; the value output is `none` if the
pointer read is not a live object. -/
def next (it : CIterator T) (h : Heap T) : Bool × Ptr × Option T × CIterator T :=
  let r := it.toBase.next
  let value_ptr := r.2.2.1
  (r.1, r.2.1,
    if value_ptr ≠ NULL then h.read value_ptr else some it.m_default_value,
    { it with toBase := r.2.2.2 })

/-- The method `void reset()`. -/
def reset (it : CIterator T) : CIterator T :=
  { it with toBase := it.toBase.reset }

/-- A client loop collecting the pairs, bounded by `fuel` calls of `next`. -/
def drain (h : Heap T) : Nat → CIterator T → Option (List (Ptr × Option T))
  | 0, _ => none
  | fuel + 1, it =>
    match it.next h with
    | (true, k, v, it1) => (drain h fuel it1).map (fun l => (k, v) :: l)
    | (false, _, _, _) => some []

end CIterator

end CLookupAny

/-- The method `bool exists(void *key) const` of `CLookupAny<T>`. -/
def CLookupAny.exists {T : Type} (s : CLookupAny T) (key : Ptr) : Bool :=
  s.m_lookup_ptr.exists key

namespace CLookupAny

variable {T : Type}

/-- A call of one of the public methods of `CLookupAny<T>`. -/
inductive Call (T : Type) where
  | put_ (key : Ptr) (value : T)
  | get_ (key : Ptr)
  | exists_ (key : Ptr)
  deriving DecidableEq, Repr

/-- Whether a call is a `put` or a `get` on the given key. -/
def Call.touches (k : Ptr) : Call T → Bool
  | .put_ key _ => key = k
  | .get_ key => key = k
  | .exists_ _ => false

/-- One method call: the store and heap after the call. -/
def call [Inhabited T] (st : CLookupAny T × Heap T) : Call T → CLookupAny T × Heap T
  | .put_ key value => st.1.put st.2 key value
  | .get_ key => (st.1.get st.2 key).2
  | .exists_ _ => st

/-- A sequence of method calls, first call first. -/
def run [Inhabited T] (st : CLookupAny T × Heap T) : List (Call T) → CLookupAny T × Heap T
  | [] => st
  | c :: cs => run (call st c) cs

/-- The value of the most recent `put` on `key` in a sequence of calls, if any. -/
def lastPut (key : Ptr) : List (Call T) → Option T
  | [] => none
  | .put_ k v :: cs => (lastPut key cs).orElse (fun _ => if k = key then some v else none)
  | _ :: cs => lastPut key cs

end CLookupAny

/-! ## Sequences of `put` calls -/

/-- A sequence of assignments `m[key] = value`, first one first. -/
def UMap.assignAll {K V : Type} [DecidableEq K] (m : List (K × V)) :
    List (K × V) → List (K × V)
  | [] => m
  | (k, v) :: ps => assignAll (assign m k v) ps

/-- A sequence of `put` calls on a `CLookupPtr`, first call first. -/
def CLookupPtr.putAll {T : Type} (st : CLookupPtr × Heap T) :
    List (Ptr × Ptr) → CLookupPtr × Heap T
  | [] => st
  | (k, v) :: ps => putAll (st.1.put st.2 k v) ps

/-- A sequence of `put` calls on a `CLookupAny`, first call first. -/
def CLookupAny.putAll {T : Type} [Inhabited T] (st : CLookupAny T × Heap T) :
    List (Ptr × T) → CLookupAny T × Heap T
  | [] => st
  | (k, v) :: ps => putAll (st.1.put st.2 k v) ps

/-- The pairs an iteration over a `CLookupAny` in a given heap is to produce: every
key with a copy of the object its pointer points to. -/
def CLookupAny.entries {T : Type} (st : CLookupAny T × Heap T) : List (Ptr × Option T) :=
  st.1.m_lookup_ptr.m_impl.map
    (fun e => (e.1, if e.2 ≠ NULL then st.2.read e.2 else some st.1.m_default_value))

/-! ## Abstraction and representation invariant of `CLookupAny<T>` -/

namespace CLookupAny

variable {T : Type}

/-- The object a key stands for: what its stored pointer points to in the heap. -/
def view (st : CLookupAny T × Heap T) (key : Ptr) : Option T :=
  (UMap.find st.1.m_lookup_ptr.m_impl key).bind st.2.read

/-- Representation invariant: every stored pointer is non-null, was handed out by
`new`, points to a live object, and is stored under one key only. -/
def Inv (st : CLookupAny T × Heap T) : Prop :=
  (∀ k p, UMap.find st.1.m_lookup_ptr.m_impl k = some p →
    p ≠ NULL ∧ p ≤ st.2.brk ∧ ∃ v, st.2.read p = some v) ∧
  (∀ k1 k2 p, UMap.find st.1.m_lookup_ptr.m_impl k1 = some p →
    UMap.find st.1.m_lookup_ptr.m_impl k2 = some p → k1 = k2)

end CLookupAny

/-! ## Properties of calls used to state preconditions -/

/-- Whether a call of `CLookupPtr` is a `put` that passes the pointer `p` as value. -/
def CLookupPtr.Call.putsValue (p : Ptr) : CLookupPtr.Call → Bool
  | .put_ _ value => value = p
  | _ => false

/-- Whether a call of `CLookupPtr` is a `put` on the key `k`. -/
def CLookupPtr.Call.putsKey (k : Ptr) : CLookupPtr.Call → Bool
  | .put_ key _ => key = k
  | _ => false

/-! ## The strategy vector (`game/strategyvector.h`) -/

/-- Modelled from the spec: the game graph `MaxPlusGameAutomatonWithRewards`, whose
source is not part of the files verified here. Vertices are identities (`Ptr`),
`edges` lists every edge as (source, destination) as `addEdge` gave them (labels and
rewards play no role in the strategy vector), and `V0` lists the policy-side vertices
as `addV0` gave them. -/
structure GameGraph where
  edges : List (Ptr × Ptr)
  V0 : List Ptr
  deriving DecidableEq, Repr

/-- Modelled from the spec: the destinations of the outgoing edges of a vertex, in
the order of the edges ("an enumeration of each vertex's outgoing edges with
destination vertices"). -/
def GameGraph.outgoing (g : GameGraph) (v : Ptr) : List Ptr :=
  (g.edges.filter (fun e => e.1 = v)).map Prod.snd

/-- Modelled from the spec: the class `StrategyVector`, whose source is not part of
the files verified here ("one entry per policy-side vertex, each holding a chosen
successor"), as a map from vertex to successor. -/
structure StrategyVector where
  m_strategy : List (Ptr × Ptr)
  deriving DecidableEq, Repr

namespace StrategyVector

/-- Modelled from the spec: the walk of `initializeRandomStrategy` over the
policy-side vertices. `rnd i` is the outcome of the random draw number `i`; the
vertex handled at draw `i` gets the destination of its outgoing edge number
`rnd i` modulo the number of its outgoing edges ("selects uniformly at random one of
its outgoing edges and records the edge's destination"); a policy-side vertex without
outgoing edge is the error "no strategy possible", here `none`. -/
def initializeFrom (g : GameGraph) (rnd : Nat → Nat) :
    Nat → List Ptr → List (Ptr × Ptr) → Option (List (Ptr × Ptr))
  | _, [], acc => some acc
  | i, v :: vs, acc =>
    match (g.outgoing v)[rnd i % (g.outgoing v).length]? with
    | none => none
    | some d => initializeFrom g rnd (i + 1) vs (UMap.assign acc v d)

/-- Modelled from the spec: `initializeRandomStrategy(graph)`, started on an empty
vector: one entry for every policy-side vertex of the graph, none for the others. -/
def initializeRandomStrategy (g : GameGraph) (rnd : Nat → Nat) : Option StrategyVector :=
  (initializeFrom g rnd 0 g.V0 []).map StrategyVector.mk

/-- Modelled from the spec: `getSuccessor(vertex)`: the recorded successor, `none`
("undefined") for a vertex without entry. -/
def getSuccessor (vec : StrategyVector) (v : Ptr) : Option Ptr :=
  UMap.find vec.m_strategy v

end StrategyVector

/-- The graph of `StrategyVectorTest::testSimpleTest`: states `s1`, `s2`, `s3` as
`1`, `2`, `3`, edges `s1 -> s2`, `s1 -> s3`, `s2 -> s1`, `s3 -> s1`, and `V0 = {s1}`. -/
def testSimpleTestGraph : GameGraph :=
  { edges := [(1, 2), (1, 3), (2, 1), (3, 1)], V0 := [1] }

/-! ## Heap accounting of `CLookupAny<T>` -/

/-- The implicit destructor `~CLookupAny()`: it destroys the member `m_lookup_ptr`
(the member `m_default_value` holds no heap object). -/
def CLookupAny.dtor {T : Type} (fuel : Nat) (s : CLookupAny T) (h : Heap T) :
    Option (Heap T) :=
  s.m_lookup_ptr.dtor fuel h

/-- The iterator of a `CLookupAny` after `n` calls of `next`. -/
def CLookupAny.CIterator.advance {T : Type} (h : Heap T) :
    Nat → CLookupAny.CIterator T → CLookupAny.CIterator T
  | 0, it => it
  | n + 1, it => advance h n (it.next h).2.2.2

/-- Accounting of the addresses handed out after the break `b0`: the stored pointers
`vals` are pairwise distinct, non-null, handed out after `b0` and not released; every
released address was handed out; and every address handed out after `b0` is stored or
has been released exactly once. -/
def Heap.Accounted (b0 : Nat) (vals : List Nat) (freed : List Nat) (brk : Nat) : Prop :=
  vals.Nodup ∧
  (∀ p ∈ vals, p ≠ NULL ∧ b0 < p ∧ p ≤ brk ∧ p ∉ freed) ∧
  (∀ a ∈ freed, a ≤ brk) ∧
  (∀ a, b0 < a → a ≤ brk → a ∈ vals ∨ freed.count a = 1) ∧
  b0 ≤ brk

/-- Heap invariant of a `CLookupAny` that was constructed when the break of the heap
was `b0`: the underlying store is owning, its keys are pairwise distinct, and its
stored pointers account for every address handed out since. -/
def CLookupAny.HeapInv {T : Type} (b0 : Nat) (st : CLookupAny T × Heap T) : Prop :=
  st.1.m_lookup_ptr.m_freePointers = true ∧
  (st.1.m_lookup_ptr.m_impl.map Prod.fst).Nodup ∧
  Heap.Accounted b0 (st.1.m_lookup_ptr.m_impl.map Prod.snd) st.2.freed st.2.brk

/-! ## Basic facts about the map model -/

namespace UMap

variable {K V : Type} [DecidableEq K]

theorem find_setSecond_self (m : List (K × V)) (key : K) (value old : V)
    (hf : find m key = some old) : find (setSecond m key value) key = some value := by
  induction m with
  | nil => simp [find] at hf
  | cons e rest ih =>
    obtain ⟨k, v⟩ := e
    by_cases hk : k = key
    · simp [setSecond, find, hk]
    · simp [setSecond, find, hk] at hf ⊢
      exact ih hf

theorem find_append_none (m : List (K × V)) (key : K) (l : List (K × V))
    (hf : find m key = none) : find (m ++ l) key = find l key := by
  induction m with
  | nil => rfl
  | cons e rest ih =>
    obtain ⟨k, v⟩ := e
    by_cases hk : k = key
    · simp [find, hk] at hf
    · simp [find, hk] at hf ⊢
      exact ih hf

theorem find_assign_self (m : List (K × V)) (key : K) (value : V) :
    find (assign m key value) key = some value := by
  unfold assign
  cases hf : find m key with
  | none => simp [find_append_none m key _ hf, find]
  | some old => exact find_setSecond_self m key value old hf

theorem find_setSecond_other (m : List (K × V)) (key : K) (value : V) (k2 : K)
    (hne : k2 ≠ key) : find (setSecond m key value) k2 = find m k2 := by
  induction m with
  | nil => rfl
  | cons e rest ih =>
    obtain ⟨k, v⟩ := e
    by_cases hk : k = key
    · subst hk
      have : ¬ k = k2 := fun h => hne h.symm
      simp [setSecond, find, this]
    · by_cases hk2 : k = k2
      · subst hk2
        simp [setSecond, find, hk]
      · simp [setSecond, find, hk, hk2, ih]

theorem find_assign_other (m : List (K × V)) (key : K) (value : V) (k2 : K)
    (hne : k2 ≠ key) : find (assign m key value) k2 = find m k2 := by
  unfold assign
  cases hf : find m key with
  | none =>
    simp only []
    induction m with
    | nil =>
      have : ¬ key = k2 := fun h => hne h.symm
      simp [find, this]
    | cons e rest ih =>
      obtain ⟨k, v⟩ := e
      by_cases hk : k = key
      · simp [find, hk] at hf
      · simp only [find, hk, if_false] at hf
        by_cases hk2 : k = k2
        · simp [find, hk2]
        · simp only [List.cons_append, find, hk2, if_false]
          exact ih hf
  | some old => exact find_setSecond_other m key value k2 hne

theorem find_filter_ne (m : List (K × V)) (p q : K) (hne : q ≠ p) :
    find (m.filter (fun c => c.1 ≠ p)) q = find m q := by
  induction m with
  | nil => rfl
  | cons e rest ih =>
    obtain ⟨k, v⟩ := e
    simp only [ne_eq, decide_not] at ih ⊢
    by_cases hk : k = p
    · subst hk
      have : ¬ k = q := fun h => hne h.symm
      simp [List.filter_cons, find, this, ih]
    · by_cases hk2 : k = q
      · subst hk2
        simp [List.filter_cons, find, hk]
      · simp [List.filter_cons, find, hk, hk2, ih]

end UMap

/-! ## Basic facts about the heap model -/

namespace Heap

variable {T : Type}

theorem read_delete_other (h : Heap T) (p q : Ptr) (hne : q ≠ p) :
    (h.delete p).read q = h.read q := by
  unfold Heap.delete
  split
  · rfl
  · exact UMap.find_filter_ne h.cells p q hne

theorem brk_delete (h : Heap T) (p : Ptr) : (h.delete p).brk = h.brk := by
  unfold Heap.delete
  split <;> rfl

theorem read_new_write_self [Inhabited T] (h : Heap T) (v : T) :
    (h.new.2.write h.new.1 v).read (h.brk + 1) = some v := by
  simp [Heap.new, Heap.write, Heap.read, UMap.find, UMap.setSecond]

theorem read_new_write_other [Inhabited T] (h : Heap T) (v : T) (q : Ptr)
    (hne : q ≠ h.brk + 1) : (h.new.2.write h.new.1 v).read q = h.read q := by
  have : ¬ h.brk + 1 = q := fun e => hne e.symm
  simp [Heap.new, Heap.write, Heap.read, UMap.find, UMap.setSecond, this]

end Heap

/-! ## Basic facts about `CLookupPtr::put` -/

namespace CLookupPtr

variable {T : Type}

theorem find_put_self (s : CLookupPtr) (h : Heap T) (k v : Ptr) :
    UMap.find (s.put h k v).1.m_impl k = some v := by
  unfold CLookupPtr.put
  cases hf : UMap.find s.m_impl k with
  | none => exact UMap.find_assign_self _ _ _
  | some old => exact UMap.find_setSecond_self _ _ _ old hf

theorem find_put_other (s : CLookupPtr) (h : Heap T) (k v k2 : Ptr) (hne : k2 ≠ k) :
    UMap.find (s.put h k v).1.m_impl k2 = UMap.find s.m_impl k2 := by
  unfold CLookupPtr.put
  cases hf : UMap.find s.m_impl k with
  | none => exact UMap.find_assign_other _ _ _ _ hne
  | some old => exact UMap.find_setSecond_other _ _ _ _ hne

theorem heap_put_absent (s : CLookupPtr) (h : Heap T) (k v : Ptr)
    (hf : UMap.find s.m_impl k = none) : (s.put h k v).2 = h := by
  simp [CLookupPtr.put, hf]

theorem heap_put_present (s : CLookupPtr) (h : Heap T) (k v old : Ptr)
    (hf : UMap.find s.m_impl k = some old) :
    (s.put h k v).2 = if s.m_freePointers then h.delete old else h := by
  simp [CLookupPtr.put, hf]

theorem read_put_other (s : CLookupPtr) (h : Heap T) (k v q : Ptr)
    (hq : ∀ old, UMap.find s.m_impl k = some old → q ≠ old) :
    (s.put h k v).2.read q = h.read q := by
  cases hf : UMap.find s.m_impl k with
  | none => rw [heap_put_absent s h k v hf]
  | some old =>
    rw [heap_put_present s h k v old hf]
    split
    · exact Heap.read_delete_other h old q (hq old hf)
    · rfl

theorem brk_put (s : CLookupPtr) (h : Heap T) (k v : Ptr) : (s.put h k v).2.brk = h.brk := by
  cases hf : UMap.find s.m_impl k with
  | none => rw [heap_put_absent s h k v hf]
  | some old =>
    rw [heap_put_present s h k v old hf]
    split
    · exact Heap.brk_delete h old
    · rfl

end CLookupPtr

namespace UMap

variable {K V : Type} [DecidableEq K]

end UMap

/-! ## `CLookupAny`: the invariant is kept and `put`/`get` act on the view -/

namespace CLookupAny

variable {T : Type} [Inhabited T]

theorem put_eq (s : CLookupAny T) (h : Heap T) (k : Ptr) (v : T) :
    s.put h k v =
      ({ s with m_lookup_ptr := (s.m_lookup_ptr.put (h.new.2.write h.new.1 v) k (h.brk + 1)).1 },
        (s.m_lookup_ptr.put (h.new.2.write h.new.1 v) k (h.brk + 1)).2) := rfl

omit [Inhabited T] in
theorem Inv_ctor (d : T) (h : Heap T) : Inv (ctor d, h) := by
  constructor
  · intro k p hf
    simp [ctor, CLookupPtr.ctor, UMap.find] at hf
  · intro k1 k2 p hf
    simp [ctor, CLookupPtr.ctor, UMap.find] at hf

theorem any_find_put_self (s : CLookupAny T) (h : Heap T) (k : Ptr) (v : T) :
    UMap.find (s.put h k v).1.m_lookup_ptr.m_impl k = some (h.brk + 1) := by
  rw [put_eq]
  exact CLookupPtr.find_put_self _ _ _ _

theorem any_find_put_other (s : CLookupAny T) (h : Heap T) (k : Ptr) (v : T) (k2 : Ptr)
    (hne : k2 ≠ k) :
    UMap.find (s.put h k v).1.m_lookup_ptr.m_impl k2 = UMap.find s.m_lookup_ptr.m_impl k2 := by
  rw [put_eq]
  exact CLookupPtr.find_put_other _ _ _ _ _ hne

theorem any_brk_put (s : CLookupAny T) (h : Heap T) (k : Ptr) (v : T) :
    (s.put h k v).2.brk = h.brk + 1 := by
  rw [put_eq]
  simp only
  rw [CLookupPtr.brk_put]
  rfl

theorem default_put (s : CLookupAny T) (h : Heap T) (k : Ptr) (v : T) :
    (s.put h k v).1.m_default_value = s.m_default_value := rfl

/-- Reading the freshly stored object after `put`. -/
theorem read_put_new (s : CLookupAny T) (h : Heap T) (k : Ptr) (v : T)
    (hold : ∀ old, UMap.find s.m_lookup_ptr.m_impl k = some old → old ≤ h.brk) :
    (s.put h k v).2.read (h.brk + 1) = some v := by
  rw [put_eq]
  simp only
  rw [CLookupPtr.read_put_other]
  · exact Heap.read_new_write_self h v
  · intro old ho
    exact Nat.ne_of_gt (Nat.lt_succ_of_le (hold old ho))

/-- Reading any other object that is not the one `put` replaces. -/
theorem read_put_old (s : CLookupAny T) (h : Heap T) (k : Ptr) (v : T) (q : Ptr)
    (hq : q ≤ h.brk) (hne : ∀ old, UMap.find s.m_lookup_ptr.m_impl k = some old → q ≠ old) :
    (s.put h k v).2.read q = h.read q := by
  rw [put_eq]
  simp only
  rw [CLookupPtr.read_put_other _ _ _ _ _ hne]
  exact Heap.read_new_write_other h v q (Nat.ne_of_lt (Nat.lt_succ_of_le hq))

theorem Inv_put (st : CLookupAny T × Heap T) (hinv : Inv st) (k : Ptr) (v : T) :
    Inv (st.1.put st.2 k v) := by
  obtain ⟨s, h⟩ := st
  obtain ⟨hlive, hinj⟩ := hinv
  simp only at hlive hinj
  have hold : ∀ old, UMap.find s.m_lookup_ptr.m_impl k = some old → old ≤ h.brk :=
    fun old ho => (hlive k old ho).2.1
  constructor
  · intro k0 p0 hf
    simp only at hf ⊢
    by_cases hk : k0 = k
    · subst hk
      rw [any_find_put_self] at hf
      have hp : p0 = h.brk + 1 := (Option.some.inj hf).symm
      subst hp
      refine ⟨by simp [NULL], by rw [any_brk_put], v, read_put_new s h k0 v hold⟩
    · rw [any_find_put_other s h k v k0 hk] at hf
      obtain ⟨hnn, hle, w, hw⟩ := hlive k0 p0 hf
      refine ⟨hnn, by rw [any_brk_put]; exact Nat.le_succ_of_le hle, w, ?_⟩
      rw [read_put_old s h k v p0 hle]
      · exact hw
      · intro old ho heq
        subst heq
        exact hk (hinj k0 k p0 hf ho)
  · intro k1 k2 p0 h1 h2
    simp only at h1 h2
    by_cases hk1 : k1 = k
    · by_cases hk2 : k2 = k
      · rw [hk1, hk2]
      · subst hk1
        rw [any_find_put_self] at h1
        rw [any_find_put_other s h k1 v k2 hk2] at h2
        have := (hlive k2 p0 h2).2.1
        have hp : p0 = h.brk + 1 := (Option.some.inj h1).symm
        rw [hp] at this
        exact absurd this (Nat.not_succ_le_self _)
    · by_cases hk2 : k2 = k
      · subst hk2
        rw [any_find_put_self] at h2
        rw [any_find_put_other s h k2 v k1 hk1] at h1
        have := (hlive k1 p0 h1).2.1
        have hp : p0 = h.brk + 1 := (Option.some.inj h2).symm
        rw [hp] at this
        exact absurd this (Nat.not_succ_le_self _)
      · rw [any_find_put_other s h k v k1 hk1] at h1
        rw [any_find_put_other s h k v k2 hk2] at h2
        exact hinj k1 k2 p0 h1 h2

theorem view_put_self (st : CLookupAny T × Heap T) (hinv : Inv st) (k : Ptr) (v : T) :
    view (st.1.put st.2 k v) k = some v := by
  obtain ⟨s, h⟩ := st
  unfold view
  rw [any_find_put_self]
  exact read_put_new s h k v (fun old ho => (hinv.1 k old ho).2.1)

theorem view_put_other (st : CLookupAny T × Heap T) (hinv : Inv st) (k : Ptr) (v : T)
    (k2 : Ptr) (hne : k2 ≠ k) : view (st.1.put st.2 k v) k2 = view st k2 := by
  obtain ⟨s, h⟩ := st
  unfold view
  rw [any_find_put_other s h k v k2 hne]
  cases hf : UMap.find s.m_lookup_ptr.m_impl k2 with
  | none => rfl
  | some p0 =>
    simp only [Option.bind]
    apply read_put_old s h k v p0 (hinv.1 k2 p0 hf).2.1
    intro old ho heq
    subst heq
    exact hne (hinv.2 k2 k p0 hf ho)

theorem get_of_absent (s : CLookupAny T) (h : Heap T) (k : Ptr)
    (hf : UMap.find s.m_lookup_ptr.m_impl k = none) :
    s.get h k = ((s.put h k s.m_default_value).2.read (h.brk + 1),
      s.put h k s.m_default_value) := by
  simp [get, put, CLookupPtr.get, hf, Heap.new]

theorem get_of_present (s : CLookupAny T) (h : Heap T) (k p : Ptr)
    (hf : UMap.find s.m_lookup_ptr.m_impl k = some p) (hp : p ≠ NULL) :
    s.get h k = (h.read p, s, h) := by
  simp [get, CLookupPtr.get, hf, hp]

/-- What `get` returns and does, in terms of the view. -/
theorem get_spec (st : CLookupAny T × Heap T) (hinv : Inv st) (k : Ptr) :
    (st.1.get st.2 k).1 = some ((view st k).getD st.1.m_default_value) ∧
    Inv (st.1.get st.2 k).2 ∧
    view (st.1.get st.2 k).2 k = some ((view st k).getD st.1.m_default_value) ∧
    (∀ k2, k2 ≠ k → view (st.1.get st.2 k).2 k2 = view st k2) ∧
    (st.1.get st.2 k).2.1.m_default_value = st.1.m_default_value := by
  cases hf : UMap.find st.1.m_lookup_ptr.m_impl k with
  | none =>
    have hv : view st k = none := by simp [view, hf]
    rw [get_of_absent st.1 st.2 k hf, hv]
    refine ⟨?_, Inv_put st hinv k _, view_put_self st hinv k _,
      fun k2 hne => view_put_other st hinv k _ k2 hne, rfl⟩
    exact read_put_new st.1 st.2 k _ (fun old ho => (hinv.1 k old ho).2.1)
  | some p =>
    obtain ⟨hnn, _, w, hw⟩ := hinv.1 k p hf
    have hv : view st k = some w := by simp [view, hf, hw]
    rw [get_of_present st.1 st.2 k p hf hnn, hv]
    exact ⟨by simpa using hw, hinv, by simp, fun _ _ => rfl, rfl⟩

theorem Inv_call (st : CLookupAny T × Heap T) (hinv : Inv st) (c : Call T) :
    Inv (call st c) := by
  cases c with
  | put_ k v => exact Inv_put st hinv k v
  | get_ k => exact (get_spec st hinv k).2.1
  | exists_ k => exact hinv

theorem default_call (st : CLookupAny T × Heap T) (c : Call T) :
    (call st c).1.m_default_value = st.1.m_default_value := by
  cases c with
  | put_ k v => rfl
  | get_ k =>
    simp only [call, get]
    split <;> rfl
  | exists_ k => rfl

/-- The value `get` returns after a sequence of calls, started in any state that
satisfies the invariant. -/
theorem get_run (cs : List (Call T)) (st : CLookupAny T × Heap T) (hinv : Inv st) (k : Ptr) :
    ((run st cs).1.get (run st cs).2 k).1 =
      some ((lastPut k cs).getD ((view st k).getD st.1.m_default_value)) := by
  induction cs generalizing st with
  | nil => exact (get_spec st hinv k).1
  | cons c cs ih =>
    have step := ih (call st c) (Inv_call st hinv c)
    simp only [run]
    rw [step, default_call]
    congr 1
    cases c with
    | put_ k0 v =>
      simp only [lastPut, call]
      cases hl : lastPut k cs with
      | some x => simp [Option.orElse]
      | none =>
        by_cases hk : k0 = k
        · subst hk
          simp [Option.orElse, view_put_self st hinv k0 v]
        · have hk2 : k ≠ k0 := fun e => hk e.symm
          simp [Option.orElse, hk, view_put_other st hinv k0 v k hk2]
    | get_ k0 =>
      simp only [lastPut, call]
      by_cases hk : k0 = k
      · subst hk
        rw [(get_spec st hinv k0).2.2.1]
        simp
      · have hk2 : k ≠ k0 := fun e => hk e.symm
        rw [(get_spec st hinv k0).2.2.2.1 k hk2]
    | exists_ k0 => simp only [lastPut, call]

theorem find_get_other (s : CLookupAny T) (h : Heap T) (k k2 : Ptr) (hne : k2 ≠ k) :
    UMap.find (s.get h k).2.1.m_lookup_ptr.m_impl k2 = UMap.find s.m_lookup_ptr.m_impl k2 := by
  simp only [get]
  split
  · exact CLookupPtr.find_put_other _ _ _ _ _ hne
  · rfl

theorem find_call_untouched (st : CLookupAny T × Heap T) (c : Call T) (k : Ptr)
    (hc : c.touches k = false) :
    UMap.find (call st c).1.m_lookup_ptr.m_impl k = UMap.find st.1.m_lookup_ptr.m_impl k := by
  cases c with
  | put_ k0 v =>
    have hne : k ≠ k0 := by
      intro e
      simp [Call.touches, e] at hc
    exact any_find_put_other st.1 st.2 k0 v k hne
  | get_ k0 =>
    have hne : k ≠ k0 := by
      intro e
      simp [Call.touches, e] at hc
    exact find_get_other st.1 st.2 k0 k hne
  | exists_ k0 => rfl

theorem find_run_untouched (cs : List (Call T)) (st : CLookupAny T × Heap T) (k : Ptr)
    (hcs : ∀ c ∈ cs, c.touches k = false) :
    UMap.find (run st cs).1.m_lookup_ptr.m_impl k = UMap.find st.1.m_lookup_ptr.m_impl k := by
  induction cs generalizing st with
  | nil => rfl
  | cons c cs ih =>
    simp only [run]
    rw [ih (call st c) (fun c2 h2 => hcs c2 (List.mem_cons_of_mem _ h2))]
    exact find_call_untouched st c k (hcs c (List.mem_cons_self _ _))

theorem default_run (cs : List (Call T)) (st : CLookupAny T × Heap T) :
    (run st cs).1.m_default_value = st.1.m_default_value := by
  induction cs generalizing st with
  | nil => rfl
  | cons c cs ih =>
    simp only [run]
    rw [ih, default_call]

/-- A `get` on a key that holds a non-null pointer changes nothing, however often it
is repeated. -/
theorem run_replicate_get (n : Nat) (st : CLookupAny T × Heap T) (k p : Ptr)
    (hf : UMap.find st.1.m_lookup_ptr.m_impl k = some p) (hp : p ≠ NULL) :
    run st (List.replicate n (Call.get_ k)) = st := by
  induction n with
  | zero => rfl
  | succ n ih =>
    simp only [List.replicate, run, call]
    rw [get_of_present st.1 st.2 k p hf hp]
    exact ih

end CLookupAny

/-! ## The destructor of `CLookupPtr` -/

namespace Heap

variable {T : Type}

theorem freed_delete (h : Heap T) (p : Ptr) :
    (h.delete p).freed = h.freed ++ (if p = NULL then [] else [p]) := by
  unfold Heap.delete
  split <;> simp

theorem freed_foldl_delete (ps : List Ptr) (h : Heap T) :
    (ps.foldl Heap.delete h).freed = h.freed ++ ps.filter (fun p => p ≠ NULL) := by
  induction ps generalizing h with
  | nil => simp
  | cons p ps ih =>
    simp only [List.foldl_cons]
    rw [ih, freed_delete]
    by_cases hp : p = NULL
    · simp [hp]
    · simp [hp, List.filter_cons]

end Heap

namespace CLookupPtr

variable {T : Type}

/-- With more fuel than entries left, the loop of the destructor ends and has
deleted the value of every entry left, in order. -/
theorem destroyLoop_eq (fuel : Nat) (it : CIterator) (h : Heap T)
    (hfuel : it.m_iterator.length < fuel) :
    destroyLoop fuel it h = some ((it.m_iterator.map Prod.snd).foldl Heap.delete h) := by
  induction fuel generalizing it h with
  | zero => exact absurd hfuel (Nat.not_lt_zero _)
  | succ fuel ih =>
    obtain ⟨lk, rem⟩ := it
    cases rem with
    | nil => rfl
    | cons e rest =>
      obtain ⟨k, v⟩ := e
      simp only [destroyLoop, CIterator.next]
      rw [ih]
      · rfl
      · simpa using hfuel

theorem dtor_owning (fuel : Nat) (s : CLookupPtr) (h : Heap T)
    (hown : s.m_freePointers = true) (hfuel : s.m_impl.length < fuel) :
    dtor fuel s h = some ((s.m_impl.map Prod.snd).foldl Heap.delete h) := by
  simp only [dtor, hown, if_true]
  exact destroyLoop_eq fuel (CIterator.ctor s) h hfuel

theorem impl_put_absent (s : CLookupPtr) (h : Heap T) (k v : Ptr)
    (hf : UMap.find s.m_impl k = none) : (s.put h k v).1.m_impl = s.m_impl ++ [(k, v)] := by
  simp [CLookupPtr.put, UMap.assign, hf]

theorem impl_put_present (s : CLookupPtr) (h : Heap T) (k v old : Ptr)
    (hf : UMap.find s.m_impl k = some old) :
    (s.put h k v).1.m_impl = UMap.setSecond s.m_impl k v := by
  simp [CLookupPtr.put, hf]

theorem freePointers_put (s : CLookupPtr) (h : Heap T) (k v : Ptr) :
    (s.put h k v).1.m_freePointers = s.m_freePointers := by
  unfold CLookupPtr.put
  split <;> rfl

theorem freePointers_call [Inhabited T] (st : CLookupPtr × Heap T) (c : Call) :
    (call st c).2.1.m_freePointers = st.1.m_freePointers := by
  cases c with
  | get_ k => rfl
  | getOrCreate_ k =>
    simp only [call, getOrCreate]
    split <;> rfl
  | put_ k v => exact freePointers_put st.1 st.2 k v
  | exists_ k => rfl

theorem freePointers_run [Inhabited T] (cs : List Call) (st : CLookupPtr × Heap T) :
    (run st cs).1.m_freePointers = st.1.m_freePointers := by
  induction cs generalizing st with
  | nil => rfl
  | cons c cs ih =>
    simp only [run]
    rw [ih, freePointers_call]

/-- A stored value that `find` returns is one of the values of the entries. -/
theorem mem_values_of_find (m : CLOOKUP_MAP_VOID) (k old : Ptr)
    (hf : UMap.find m k = some old) : old ∈ m.map Prod.snd := by
  induction m with
  | nil => simp [UMap.find] at hf
  | cons e rest ih =>
    obtain ⟨k0, v0⟩ := e
    by_cases hk : k0 = k
    · simp [UMap.find, hk] at hf
      simp [hf]
    · simp only [UMap.find, hk, if_false] at hf
      simp [ih hf]

theorem not_mem_values_setSecond_twice (m : CLOOKUP_MAP_VOID) (k a b : Ptr)
    (ha : a ∉ m.map Prod.snd) (hab : a ≠ b) :
    a ∉ (UMap.setSecond (UMap.setSecond m k a) k b).map Prod.snd := by
  induction m with
  | nil => simp [UMap.setSecond]
  | cons e rest ih =>
    obtain ⟨k0, v0⟩ := e
    simp only [List.map_cons, List.mem_cons, not_or] at ha
    by_cases hk : k0 = k
    · simp [UMap.setSecond, hk, hab, ha.2]
    · simp only [UMap.setSecond, hk, if_false, List.map_cons, List.mem_cons, not_or]
      exact ⟨ha.1, ih ha.2⟩

theorem not_mem_values_append_setSecond (m : CLOOKUP_MAP_VOID) (k a b : Ptr)
    (hf : UMap.find m k = none) (ha : a ∉ m.map Prod.snd) (hab : a ≠ b) :
    a ∉ (UMap.setSecond (m ++ [(k, a)]) k b).map Prod.snd := by
  induction m with
  | nil => simp [UMap.setSecond, hab]
  | cons e rest ih =>
    obtain ⟨k0, v0⟩ := e
    simp only [List.map_cons, List.mem_cons, not_or] at ha
    by_cases hk : k0 = k
    · simp [UMap.find, hk] at hf
    · simp only [UMap.find, hk, if_false] at hf
      simp only [List.cons_append, UMap.setSecond, hk, if_false, List.map_cons, List.mem_cons,
        not_or]
      exact ⟨ha.1, ih hf ha.2⟩

theorem keys_setSecond (m : CLOOKUP_MAP_VOID) (k v : Ptr) :
    (UMap.setSecond m k v).map Prod.fst = m.map Prod.fst := by
  induction m with
  | nil => rfl
  | cons e rest ih =>
    obtain ⟨k0, v0⟩ := e
    by_cases hk : k0 = k
    · simp [UMap.setSecond, hk]
    · simp [UMap.setSecond, hk, ih]

theorem not_mem_keys_of_find_none (m : CLOOKUP_MAP_VOID) (k : Ptr)
    (hf : UMap.find m k = none) : k ∉ m.map Prod.fst := by
  induction m with
  | nil => simp
  | cons e rest ih =>
    obtain ⟨k0, v0⟩ := e
    by_cases hk : k0 = k
    · simp [UMap.find, hk] at hf
    · simp only [UMap.find, hk, if_false] at hf
      simp only [List.map_cons, List.mem_cons, not_or]
      exact ⟨fun e => hk e.symm, ih hf⟩

theorem nodup_keys_assign (m : CLOOKUP_MAP_VOID) (k v : Ptr)
    (hm : (m.map Prod.fst).Nodup) : ((UMap.assign m k v).map Prod.fst).Nodup := by
  unfold UMap.assign
  cases hf : UMap.find m k with
  | none =>
    simp only [List.map_append, List.map_cons, List.map_nil]
    refine List.Nodup.append hm (List.nodup_singleton k) ?_
    intro a ha hb
    have : a = k := by simpa using hb
    subst this
    exact not_mem_keys_of_find_none m a hf ha
  | some old =>
    simp only [keys_setSecond]
    exact hm

theorem nodup_keys_call [Inhabited T] (st : CLookupPtr × Heap T) (c : Call)
    (hm : (st.1.m_impl.map Prod.fst).Nodup) : ((call st c).2.1.m_impl.map Prod.fst).Nodup := by
  cases c with
  | get_ k => exact hm
  | getOrCreate_ k =>
    simp only [call, getOrCreate]
    split
    · exact nodup_keys_assign _ _ _ hm
    · exact hm
  | put_ k v =>
    simp only [call, put]
    split
    · exact nodup_keys_assign _ _ _ hm
    · simp only [keys_setSecond]
      exact hm
  | exists_ k => exact hm

theorem nodup_keys_run [Inhabited T] (cs : List Call) (st : CLookupPtr × Heap T)
    (hm : (st.1.m_impl.map Prod.fst).Nodup) : ((run st cs).1.m_impl.map Prod.fst).Nodup := by
  induction cs generalizing st with
  | nil => exact hm
  | cons c cs ih => exact ih _ (nodup_keys_call st c hm)

end CLookupPtr

/-! ## Iteration and sequences of `put` calls -/

namespace UMap

variable {K V : Type} [DecidableEq K]

/-- Assignments on pairwise distinct keys that are all absent add the entries. -/
theorem assignAll_distinct (ps : List (K × V)) (m : List (K × V))
    (hnd : (ps.map Prod.fst).Nodup) (habs : ∀ k ∈ ps.map Prod.fst, find m k = none) :
    assignAll m ps = m ++ ps := by
  induction ps generalizing m with
  | nil => simp [assignAll]
  | cons e ps ih =>
    obtain ⟨k, v⟩ := e
    simp only [List.map_cons, List.nodup_cons] at hnd
    have hk : find m k = none := habs k (by simp)
    have hm : assign m k v = m ++ [(k, v)] := by simp [assign, hk]
    simp only [assignAll]
    rw [ih (assign m k v) hnd.2, hm]
    · simp
    · intro k2 hk2
      have hne : k2 ≠ k := fun e => hnd.1 (e ▸ hk2)
      rw [find_assign_other m k v k2 hne]
      exact habs k2 (by simp [hk2])

end UMap

theorem CLookupPtr.impl_put {T : Type} (s : CLookupPtr) (h : Heap T) (k v : Ptr) :
    (s.put h k v).1.m_impl = UMap.assign s.m_impl k v := by
  unfold CLookupPtr.put UMap.assign
  cases hf : UMap.find s.m_impl k <;> simp [UMap.assign, hf]

theorem CLookupPtr.impl_putAll_ptr {T : Type} (ps : List (Ptr × Ptr)) (st : CLookupPtr × Heap T) :
    (CLookupPtr.putAll st ps).1.m_impl = UMap.assignAll st.1.m_impl ps := by
  induction ps generalizing st with
  | nil => rfl
  | cons e ps ih =>
    obtain ⟨k, v⟩ := e
    simp only [CLookupPtr.putAll, UMap.assignAll]
    rw [ih, CLookupPtr.impl_put]

theorem CLookupInt.impl_putAll_int (ps : List (Ptr × Int)) (s : CLookupInt) :
    (s.putAll ps).m_impl = UMap.assignAll s.m_impl ps := by
  induction ps generalizing s with
  | nil => rfl
  | cons e ps ih =>
    obtain ⟨k, v⟩ := e
    simp only [CLookupInt.putAll, UMap.assignAll]
    rw [ih]
    rfl

theorem CLookupIntInt.impl_putAll_intint (ps : List (Int × Int)) (s : CLookupIntInt) :
    (s.putAll ps).m_impl = UMap.assignAll s.m_impl ps := by
  induction ps generalizing s with
  | nil => rfl
  | cons e ps ih =>
    obtain ⟨k, v⟩ := e
    simp only [CLookupIntInt.putAll, UMap.assignAll]
    rw [ih]
    rfl

theorem CLookupPtr.CIterator.drain_eq_ptr (fuel : Nat) (it : CLookupPtr.CIterator)
    (hfuel : it.m_iterator.length < fuel) : it.drain fuel = some it.m_iterator := by
  induction fuel generalizing it with
  | zero => exact absurd hfuel (Nat.not_lt_zero _)
  | succ fuel ih =>
    obtain ⟨lk, rem⟩ := it
    cases rem with
    | nil => rfl
    | cons e rest =>
      obtain ⟨k, v⟩ := e
      simp only [drain, next]
      rw [ih]
      · rfl
      · simpa using hfuel

theorem CLookupInt.CIterator.drain_eq_int (fuel : Nat) (it : CLookupInt.CIterator)
    (hfuel : it.m_iterator.length < fuel) : it.drain fuel = some it.m_iterator := by
  induction fuel generalizing it with
  | zero => exact absurd hfuel (Nat.not_lt_zero _)
  | succ fuel ih =>
    obtain ⟨lk, rem⟩ := it
    cases rem with
    | nil => rfl
    | cons e rest =>
      obtain ⟨k, v⟩ := e
      simp only [drain, next]
      rw [ih]
      · rfl
      · simpa using hfuel

theorem CLookupIntInt.CIterator.drain_eq_intint (fuel : Nat) (it : CLookupIntInt.CIterator)
    (hfuel : it.m_iterator.length < fuel) : it.drain fuel = some it.m_iterator := by
  induction fuel generalizing it with
  | zero => exact absurd hfuel (Nat.not_lt_zero _)
  | succ fuel ih =>
    obtain ⟨lk, rem⟩ := it
    cases rem with
    | nil => rfl
    | cons e rest =>
      obtain ⟨k, v⟩ := e
      simp only [drain, next]
      rw [ih]
      · rfl
      · simpa using hfuel

theorem CLookupAny.CIterator.drain_eq_any {T : Type} (h : Heap T) (fuel : Nat)
    (it : CLookupAny.CIterator T) (hfuel : it.toBase.m_iterator.length < fuel) :
    it.drain h fuel = some (it.toBase.m_iterator.map
      (fun e => (e.1, if e.2 ≠ NULL then h.read e.2 else some it.m_default_value))) := by
  induction fuel generalizing it with
  | zero => exact absurd hfuel (Nat.not_lt_zero _)
  | succ fuel ih =>
    obtain ⟨⟨lk, rem⟩, d⟩ := it
    cases rem with
    | nil => rfl
    | cons e rest =>
      obtain ⟨k, v⟩ := e
      simp only [drain, next, CLookupPtr.CIterator.next]
      rw [ih]
      · rfl
      · simpa using hfuel

/-- A `put` of `CLookupAny` on an absent key adds one pair to what an iteration is
to produce, provided every stored pointer was handed out by `new`. -/
theorem CLookupAny.entries_put_absent {T : Type} [Inhabited T] (st : CLookupAny T × Heap T)
    (k : Ptr) (v : T) (hf : UMap.find st.1.m_lookup_ptr.m_impl k = none)
    (hle : ∀ e ∈ st.1.m_lookup_ptr.m_impl, e.2 ≤ st.2.brk) :
    CLookupAny.entries (st.1.put st.2 k v) = CLookupAny.entries st ++ [(k, some v)] ∧
    (st.1.put st.2 k v).1.m_lookup_ptr.m_impl =
      st.1.m_lookup_ptr.m_impl ++ [(k, st.2.brk + 1)] ∧
    ∀ e ∈ (st.1.put st.2 k v).1.m_lookup_ptr.m_impl, e.2 ≤ (st.1.put st.2 k v).2.brk := by
  obtain ⟨s, h⟩ := st
  simp only at hf hle
  have himpl : (s.put h k v).1.m_lookup_ptr.m_impl = s.m_lookup_ptr.m_impl ++ [(k, h.brk + 1)] := by
    rw [CLookupAny.put_eq]
    exact CLookupPtr.impl_put_absent _ _ _ _ hf
  have hheap : (s.put h k v).2 = h.new.2.write h.new.1 v := by
    rw [CLookupAny.put_eq]
    exact CLookupPtr.heap_put_absent _ _ _ _ hf
  refine ⟨?_, himpl, ?_⟩
  · unfold CLookupAny.entries
    simp only [himpl, hheap, List.map_append, List.map_cons, List.map_nil]
    congr 1
    · apply List.map_congr_left
      intro e he
      have hne : e.2 ≠ h.brk + 1 := Nat.ne_of_lt (Nat.lt_succ_of_le (hle e he))
      rw [Heap.read_new_write_other h v e.2 hne]
      rfl
    · have hnn : ¬ h.brk + 1 = NULL := by simp [NULL]
      simp only [ne_eq, hnn, not_false_eq_true, if_true, Heap.read_new_write_self]
  · intro e he
    rw [himpl] at he
    rw [CLookupAny.any_brk_put]
    rcases List.mem_append.mp he with h1 | h1
    · exact Nat.le_succ_of_le (hle e h1)
    · have : e = (k, h.brk + 1) := by simpa using h1
      rw [this]

theorem CLookupAny.entries_putAll {T : Type} [Inhabited T] (ps : List (Ptr × T))
    (st : CLookupAny T × Heap T) (hnd : (ps.map Prod.fst).Nodup)
    (habs : ∀ k ∈ ps.map Prod.fst, UMap.find st.1.m_lookup_ptr.m_impl k = none)
    (hle : ∀ e ∈ st.1.m_lookup_ptr.m_impl, e.2 ≤ st.2.brk) :
    CLookupAny.entries (CLookupAny.putAll st ps) =
      CLookupAny.entries st ++ ps.map (fun e => (e.1, some e.2)) := by
  induction ps generalizing st with
  | nil => simp [CLookupAny.putAll]
  | cons e ps ih =>
    obtain ⟨k, v⟩ := e
    simp only [List.map_cons, List.nodup_cons] at hnd
    have hk : UMap.find st.1.m_lookup_ptr.m_impl k = none := habs k (by simp)
    obtain ⟨hent, himpl, hle2⟩ := CLookupAny.entries_put_absent st k v hk hle
    simp only [CLookupAny.putAll]
    rw [ih (st.1.put st.2 k v) hnd.2 _ hle2, hent]
    · simp
    · intro k2 hk2
      have hne : k2 ≠ k := fun e => hnd.1 (e ▸ hk2)
      rw [CLookupAny.any_find_put_other st.1 st.2 k v k2 hne]
      exact habs k2 (by simp [hk2])

/-! ## Stepping an iterator -/

theorem CLookupPtr.CIterator.lookup_advance_ptr (j : Nat) (it : CLookupPtr.CIterator) :
    (advance j it).m_lookup = it.m_lookup := by
  induction j generalizing it with
  | zero => rfl
  | succ j ih =>
    obtain ⟨lk, rem⟩ := it
    cases rem with
    | nil => exact ih _
    | cons e rest => exact ih _

theorem CLookupPtr.CIterator.next_advance_ptr (j : Nat) (lk : CLookupPtr)
    (l : CLOOKUP_MAP_VOID) :
    ((advance j ⟨lk, l⟩).next.1, (advance j ⟨lk, l⟩).next.2.1,
        (advance j ⟨lk, l⟩).next.2.2.1) =
      match l[j]? with
      | some e => (true, e.1, e.2)
      | none => (false, NULL, NULL) := by
  induction j generalizing l with
  | zero =>
    cases l with
    | nil => rfl
    | cons e rest =>
      obtain ⟨k, v⟩ := e
      simp [advance, next]
  | succ j ih =>
    cases l with
    | nil => simpa using ih []
    | cons e rest => simpa using ih rest

theorem CLookupInt.CIterator.lookup_advance_int (j : Nat) (it : CLookupInt.CIterator) :
    (advance j it).m_lookup = it.m_lookup := by
  induction j generalizing it with
  | zero => rfl
  | succ j ih =>
    obtain ⟨lk, rem⟩ := it
    cases rem with
    | nil => exact ih _
    | cons e rest => exact ih _

theorem CLookupInt.CIterator.next_advance_int (j : Nat) (lk : CLookupInt)
    (l : CLOOKUP_MAP_INT) :
    ((advance j ⟨lk, l⟩).next.1, (advance j ⟨lk, l⟩).next.2.1,
        (advance j ⟨lk, l⟩).next.2.2.1) =
      match l[j]? with
      | some e => (true, e.1, e.2)
      | none => (false, NULL, 0) := by
  induction j generalizing l with
  | zero =>
    cases l with
    | nil => rfl
    | cons e rest =>
      obtain ⟨k, v⟩ := e
      simp [advance, next]
  | succ j ih =>
    cases l with
    | nil => simpa using ih []
    | cons e rest => simpa using ih rest

theorem CLookupIntInt.CIterator.lookup_advance_intint (j : Nat) (it : CLookupIntInt.CIterator) :
    (advance j it).m_lookup = it.m_lookup := by
  induction j generalizing it with
  | zero => rfl
  | succ j ih =>
    obtain ⟨lk, rem⟩ := it
    cases rem with
    | nil => exact ih _
    | cons e rest => exact ih _

theorem CLookupIntInt.CIterator.next_advance_intint (j : Nat) (lk : CLookupIntInt)
    (l : CLOOKUP_MAP_INT_INT) :
    ((advance j ⟨lk, l⟩).next.1, (advance j ⟨lk, l⟩).next.2.1,
        (advance j ⟨lk, l⟩).next.2.2.1) =
      match l[j]? with
      | some e => (true, e.1, e.2)
      | none => (false, 0, 0) := by
  induction j generalizing l with
  | zero =>
    cases l with
    | nil => rfl
    | cons e rest =>
      obtain ⟨k, v⟩ := e
      simp [advance, next]
  | succ j ih =>
    cases l with
    | nil => simpa using ih []
    | cons e rest => simpa using ih rest

theorem CLookupPtr.CIterator.next_advance_lt_ptr (j : Nat) (lk : CLookupPtr)
    (l : CLOOKUP_MAP_VOID) (hj : j < l.length) :
    ((advance j ⟨lk, l⟩).next.1, (advance j ⟨lk, l⟩).next.2.1,
        (advance j ⟨lk, l⟩).next.2.2.1) = (true, l[j].1, l[j].2) := by
  have h := next_advance_ptr j lk l
  rw [List.getElem?_eq_getElem hj] at h
  exact h

theorem CLookupPtr.CIterator.next_advance_ge_ptr (j : Nat) (lk : CLookupPtr)
    (l : CLOOKUP_MAP_VOID) (hj : l.length ≤ j) :
    ((advance j ⟨lk, l⟩).next.1, (advance j ⟨lk, l⟩).next.2.1,
        (advance j ⟨lk, l⟩).next.2.2.1) = (false, NULL, NULL) := by
  have h := next_advance_ptr j lk l
  rw [List.getElem?_eq_none hj] at h
  exact h

theorem CLookupInt.CIterator.next_advance_lt_int (j : Nat) (lk : CLookupInt)
    (l : CLOOKUP_MAP_INT) (hj : j < l.length) :
    ((advance j ⟨lk, l⟩).next.1, (advance j ⟨lk, l⟩).next.2.1,
        (advance j ⟨lk, l⟩).next.2.2.1) = (true, l[j].1, l[j].2) := by
  have h := next_advance_int j lk l
  rw [List.getElem?_eq_getElem hj] at h
  exact h

theorem CLookupInt.CIterator.next_advance_ge_int (j : Nat) (lk : CLookupInt)
    (l : CLOOKUP_MAP_INT) (hj : l.length ≤ j) :
    ((advance j ⟨lk, l⟩).next.1, (advance j ⟨lk, l⟩).next.2.1,
        (advance j ⟨lk, l⟩).next.2.2.1) = (false, NULL, 0) := by
  have h := next_advance_int j lk l
  rw [List.getElem?_eq_none hj] at h
  exact h

theorem CLookupIntInt.CIterator.next_advance_lt_intint (j : Nat) (lk : CLookupIntInt)
    (l : CLOOKUP_MAP_INT_INT) (hj : j < l.length) :
    ((advance j ⟨lk, l⟩).next.1, (advance j ⟨lk, l⟩).next.2.1,
        (advance j ⟨lk, l⟩).next.2.2.1) = (true, l[j].1, l[j].2) := by
  have h := next_advance_intint j lk l
  rw [List.getElem?_eq_getElem hj] at h
  exact h

theorem CLookupIntInt.CIterator.next_advance_ge_intint (j : Nat) (lk : CLookupIntInt)
    (l : CLOOKUP_MAP_INT_INT) (hj : l.length ≤ j) :
    ((advance j ⟨lk, l⟩).next.1, (advance j ⟨lk, l⟩).next.2.1,
        (advance j ⟨lk, l⟩).next.2.2.1) = (false, 0, 0) := by
  have h := next_advance_intint j lk l
  rw [List.getElem?_eq_none hj] at h
  exact h

/-- The flag of a call that is true with an entry and false past the end. -/
theorem flag_of_cases {α : Type} (n j : Nat) (b : Bool) (x : α) (f : j < n → α) (y : α)
    (hlt : ∀ hj : j < n, (b, x) = (true, f hj)) (hge : n ≤ j → (b, x) = (false, y)) :
    b = decide (j < n) := by
  by_cases hj : j < n
  · have := congrArg Prod.fst (hlt hj)
    simpa [hj] using this
  · have := congrArg Prod.fst (hge (Nat.le_of_not_lt hj))
    simpa [hj] using this

/-! ## Basic facts about the integer stores -/

theorem CLookupInt.find_putAll_other_int (ps : List (Ptr × Int)) (s : CLookupInt) (k : Ptr)
    (hk : k ∉ ps.map Prod.fst) :
    UMap.find (s.putAll ps).m_impl k = UMap.find s.m_impl k := by
  induction ps generalizing s with
  | nil => rfl
  | cons e ps ih =>
    obtain ⟨k0, v0⟩ := e
    simp only [List.map_cons, List.mem_cons, not_or] at hk
    simp only [CLookupInt.putAll]
    rw [ih _ hk.2]
    exact UMap.find_assign_other s.m_impl k0 v0 k hk.1

theorem CLookupIntInt.find_putAll_other_intint (ps : List (Int × Int)) (s : CLookupIntInt) (k : Int)
    (hk : k ∉ ps.map Prod.fst) :
    UMap.find (s.putAll ps).m_impl k = UMap.find s.m_impl k := by
  induction ps generalizing s with
  | nil => rfl
  | cons e ps ih =>
    obtain ⟨k0, v0⟩ := e
    simp only [List.map_cons, List.mem_cons, not_or] at hk
    simp only [CLookupIntInt.putAll]
    rw [ih _ hk.2]
    exact UMap.find_assign_other s.m_impl k0 v0 k hk.1

/-! ## C1 -/

/-- C1: round trip on `CLookupPtr`: for every store (owning or not), heap, key and
pointer value, after `put(k, v)` the call `get(k)` returns `v` and `exists(k)` is
true, whether or not `k` was present before. -/
theorem CLookupPtr.put_get_roundtrip {T : Type} (s : CLookupPtr) (h : Heap T) (k v : Ptr) :
    (s.put h k v).1.get k = v ∧ (s.put h k v).1.exists k = true := by
  have key : UMap.find (s.put h k v).1.m_impl k = some v := find_put_self s h k v
  simp [CLookupPtr.get, CLookupPtr.exists, key]

/-! ## C2 -/

/-- C2: `CLookupAny` is a total map with a default: for every default `D`, every
heap the store is constructed in and every finite sequence of `put`, `get` and
`exists` calls, a following `get(k)` returns the value of the most recent `put(k, .)`
of the sequence, or `D` when the sequence has no `put` on `k`. -/
theorem CLookupAny.get_after_calls {T : Type} [Inhabited T] (D : T) (h0 : Heap T)
    (cs : List (CLookupAny.Call T)) (k : Ptr) :
    ((CLookupAny.run (CLookupAny.ctor D, h0) cs).1.get
        (CLookupAny.run (CLookupAny.ctor D, h0) cs).2 k).1 =
      some ((CLookupAny.lastPut k cs).getD D) := by
  have hrun := CLookupAny.get_run cs (CLookupAny.ctor D, h0) (CLookupAny.Inv_ctor D h0) k
  have hv : CLookupAny.view (CLookupAny.ctor D, h0) k = none := by
    simp [CLookupAny.view, CLookupAny.ctor, CLookupPtr.ctor, UMap.find]
  rw [hrun, hv]
  rfl

/-! ## C3 -/

/-- C3: default materialization is idempotent. Let `st` be a `CLookupAny` store with
default `D` built by any sequence of calls none of which is a `put` or a `get` on `k`,
and `r` the outcome of the first `get(k)`. Then `exists(k)` is false in `st`; `r`
returns `D` and `exists(k)` is true after it; after any number `n` of further
`get(k)` calls the store and heap are still the ones the first `get(k)` left; and a
`get(k)` there returns `D` again and changes nothing. -/
theorem CLookupAny.get_default_idempotent {T : Type} [Inhabited T] (D : T) (h0 : Heap T)
    (cs : List (CLookupAny.Call T)) (k : Ptr)
    (hcs : ∀ c ∈ cs, c.touches k = false) (n : Nat)
    (st : CLookupAny T × Heap T) (hst : st = CLookupAny.run (CLookupAny.ctor D, h0) cs)
    (r : Option T × CLookupAny T × Heap T) (hr : r = st.1.get st.2 k) :
    st.1.exists k = false ∧
    r.1 = some D ∧
    r.2.1.exists k = true ∧
    CLookupAny.run r.2 (List.replicate n (CLookupAny.Call.get_ k)) = r.2 ∧
    r.2.1.get r.2.2 k = (some D, r.2) := by
  have hf : UMap.find st.1.m_lookup_ptr.m_impl k = none := by
    rw [hst, CLookupAny.find_run_untouched cs _ k hcs]
    rfl
  have hd : st.1.m_default_value = D := by
    rw [hst, CLookupAny.default_run]
    rfl
  have hnew : (st.1.put st.2 k D).2.read (st.2.brk + 1) = some D :=
    CLookupAny.read_put_new st.1 st.2 k D (fun old ho => by rw [hf] at ho; cases ho)
  have hf1 : UMap.find (st.1.put st.2 k D).1.m_lookup_ptr.m_impl k = some (st.2.brk + 1) :=
    CLookupAny.any_find_put_self st.1 st.2 k D
  have hnn : st.2.brk + 1 ≠ NULL := by simp [NULL]
  rw [CLookupAny.get_of_absent st.1 st.2 k hf, hd] at hr
  subst hr
  refine ⟨?_, hnew, ?_, ?_, ?_⟩
  · simp [CLookupAny.exists, CLookupPtr.exists, hf]
  · simp [CLookupAny.exists, CLookupPtr.exists, hf1]
  · exact CLookupAny.run_replicate_get n _ k _ hf1 hnn
  · rw [CLookupAny.get_of_present _ _ k _ hf1 hnn, hnew]

/-- Witness for C3: the store built by `put(1, 5)` and `get(2)` with default `7`,
queried at the untouched key `3`, with two further reads. -/
theorem CLookupAny.get_default_idempotent_witness :
    (CLookupAny.run (CLookupAny.ctor (7 : Nat), ⟨0, [], []⟩)
        [CLookupAny.Call.put_ 1 5, CLookupAny.Call.get_ 2]).1.exists 3 = false ∧
    ((CLookupAny.run (CLookupAny.ctor (7 : Nat), ⟨0, [], []⟩)
        [CLookupAny.Call.put_ 1 5, CLookupAny.Call.get_ 2]).1.get
      (CLookupAny.run (CLookupAny.ctor (7 : Nat), ⟨0, [], []⟩)
        [CLookupAny.Call.put_ 1 5, CLookupAny.Call.get_ 2]).2 3).1 = some 7 :=
  have h := CLookupAny.get_default_idempotent (7 : Nat) ⟨0, [], []⟩
    [CLookupAny.Call.put_ 1 5, CLookupAny.Call.get_ 2] 3 (by decide) 2 _ rfl _ rfl
  ⟨h.1, h.2.1⟩

/-! ## C4 -/

/-- C4: miss sentinels of the integer stores. For a `CLookupInt` built from the empty
store by `put` calls none of which is on `k`, `get(k)` is `0` and `exists(k)` is
false; for a `CLookupIntInt` built by `put` calls none of which is on `j`, `get(j)` is
`-1` and `exists(j)` is false. Both methods are functions of the store alone: they
return a value and no changed store. -/
theorem CLookupInt.miss_sentinels (ps : List (Ptr × Int)) (k : Ptr)
    (hk : k ∉ ps.map Prod.fst) (qs : List (Int × Int)) (j : Int)
    (hj : j ∉ qs.map Prod.fst) :
    (CLookupInt.ctor.putAll ps).get k = 0 ∧
    (CLookupInt.ctor.putAll ps).exists k = false ∧
    (CLookupIntInt.ctor.putAll qs).get j = -1 ∧
    (CLookupIntInt.ctor.putAll qs).exists j = false := by
  have h1 : UMap.find (CLookupInt.ctor.putAll ps).m_impl k = none := by
    rw [CLookupInt.find_putAll_other_int ps _ k hk]
    rfl
  have h2 : UMap.find (CLookupIntInt.ctor.putAll qs).m_impl j = none := by
    rw [CLookupIntInt.find_putAll_other_intint qs _ j hj]
    rfl
  simp [CLookupInt.get, CLookupInt.exists, CLookupIntInt.get, CLookupIntInt.exists, h1, h2]

/-- Witness for C4: stores holding keys `1, 2` (resp. `10, 20`), queried at `3`
(resp. `30`). -/
theorem CLookupInt.miss_sentinels_witness :
    (CLookupInt.ctor.putAll [(1, 5), (2, 0)]).get 3 = 0 ∧
    (CLookupInt.ctor.putAll [(1, 5), (2, 0)]).exists 3 = false ∧
    (CLookupIntInt.ctor.putAll [(10, -1), (20, 4)]).get 30 = -1 ∧
    (CLookupIntInt.ctor.putAll [(10, -1), (20, 4)]).exists 30 = false :=
  CLookupInt.miss_sentinels [(1, 5), (2, 0)] 3 (by decide) [(10, -1), (20, 4)] 30 (by decide)

/-! ## C5 -/

/-- C5 as stated fails: in an owning store, `put(1, 5)` followed by `put(1, 5)`
releases `5` once by the overwrite and the destructor releases the stored `5` again;
and when `5` is also held under key `2`, `put(1, 5); put(1, 6)` releases `5` once and
the destructor releases it again through key `2`. -/
theorem CLookupPtr.overwrite_release_counterexample :
    (CLookupPtr.run (CLookupPtr.ctor true, (⟨5, [(5, 0)], []⟩ : Heap Nat))
      [CLookupPtr.Call.put_ 1 5, CLookupPtr.Call.put_ 1 5]).2.freed = [5] ∧
    (CLookupPtr.dtor 2
      (CLookupPtr.run (CLookupPtr.ctor true, (⟨5, [(5, 0)], []⟩ : Heap Nat))
        [CLookupPtr.Call.put_ 1 5, CLookupPtr.Call.put_ 1 5]).1
      (CLookupPtr.run (CLookupPtr.ctor true, (⟨5, [(5, 0)], []⟩ : Heap Nat))
        [CLookupPtr.Call.put_ 1 5, CLookupPtr.Call.put_ 1 5]).2).map Heap.freed
      = some [5, 5] ∧
    (CLookupPtr.run (CLookupPtr.ctor true, (⟨6, [(6, 0), (5, 0)], []⟩ : Heap Nat))
      [CLookupPtr.Call.put_ 2 5, CLookupPtr.Call.put_ 1 5, CLookupPtr.Call.put_ 1 6]).2.freed
      = [5] ∧
    (CLookupPtr.dtor 3
      (CLookupPtr.run (CLookupPtr.ctor true, (⟨6, [(6, 0), (5, 0)], []⟩ : Heap Nat))
        [CLookupPtr.Call.put_ 2 5, CLookupPtr.Call.put_ 1 5, CLookupPtr.Call.put_ 1 6]).1
      (CLookupPtr.run (CLookupPtr.ctor true, (⟨6, [(6, 0), (5, 0)], []⟩ : Heap Nat))
        [CLookupPtr.Call.put_ 2 5, CLookupPtr.Call.put_ 1 5, CLookupPtr.Call.put_ 1 6]).2).map
      Heap.freed = some [5, 5, 6] := by
  decide

/-- C5 (amended): in an owning store, for a non-null `v1` that differs from `v2` and
is not already held by the store, `put(k, v1)` followed by `put(k, v2)` releases `v1`
exactly once, and the destructor, which ends, does not release `v1` again. -/
theorem CLookupPtr.overwrite_releases_once {T : Type} (s : CLookupPtr) (h : Heap T)
    (k v1 v2 : Ptr) (hown : s.m_freePointers = true) (hnn : v1 ≠ NULL) (hne : v1 ≠ v2)
    (hfresh : v1 ∉ s.m_impl.map Prod.snd)
    (st1 : CLookupPtr × Heap T) (hst1 : st1 = s.put h k v1)
    (st2 : CLookupPtr × Heap T) (hst2 : st2 = st1.1.put st1.2 k v2)
    (fuel : Nat) (hfuel : st2.1.m_impl.length < fuel) :
    st2.2.freed.count v1 = h.freed.count v1 + 1 ∧
    ∃ h3, CLookupPtr.dtor fuel st2.1 st2.2 = some h3 ∧
      h3.freed.count v1 = st2.2.freed.count v1 := by
  have hown1 : st1.1.m_freePointers = true := by
    rw [hst1, CLookupPtr.freePointers_put]
    exact hown
  have hown2 : st2.1.m_freePointers = true := by
    rw [hst2, CLookupPtr.freePointers_put]
    exact hown1
  have hf1 : UMap.find st1.1.m_impl k = some v1 := by
    rw [hst1]
    exact CLookupPtr.find_put_self s h k v1
  have hfreed1 : st1.2.freed.count v1 = h.freed.count v1 := by
    cases hf : UMap.find s.m_impl k with
    | none => rw [hst1, CLookupPtr.heap_put_absent s h k v1 hf]
    | some old =>
      have hold : old ≠ v1 := by
        intro e
        rw [e] at hf
        exact hfresh (CLookupPtr.mem_values_of_find _ _ _ hf)
      rw [hst1, CLookupPtr.heap_put_present s h k v1 old hf, hown, if_pos rfl,
        Heap.freed_delete, List.count_append]
      by_cases ho : old = NULL
      · simp [ho]
      · simp [ho, List.count_cons, hold]
  have hfreed2 : st2.2.freed = st1.2.freed ++ [v1] := by
    rw [hst2, CLookupPtr.heap_put_present st1.1 st1.2 k v2 v1 hf1, hown1, if_pos rfl,
      Heap.freed_delete, if_neg hnn]
  have hvals : v1 ∉ st2.1.m_impl.map Prod.snd := by
    rw [hst2, CLookupPtr.impl_put_present st1.1 st1.2 k v2 v1 hf1]
    cases hf : UMap.find s.m_impl k with
    | none =>
      rw [hst1, CLookupPtr.impl_put_absent s h k v1 hf]
      exact CLookupPtr.not_mem_values_append_setSecond _ _ _ _ hf hfresh hne
    | some old =>
      rw [hst1, CLookupPtr.impl_put_present s h k v1 old hf]
      exact CLookupPtr.not_mem_values_setSecond_twice _ _ _ _ hfresh hne
  refine ⟨?_, _, CLookupPtr.dtor_owning fuel st2.1 st2.2 hown2 hfuel, ?_⟩
  · rw [hfreed2, List.count_append, hfreed1]
    simp
  · rw [Heap.freed_foldl_delete, List.count_append]
    have : v1 ∉ (st2.1.m_impl.map Prod.snd).filter (fun p => p ≠ NULL) :=
      fun hm => hvals (List.mem_of_mem_filter hm)
    rw [List.count_eq_zero_of_not_mem this]
    rfl

/-- Witness for C5 (amended): a store already holding `(2, 7)`, with `k = 1`,
`v1 = 5`, `v2 = 6`. -/
theorem CLookupPtr.overwrite_releases_once_witness :
    (((CLookupPtr.mk [(2, 7)] true).put (⟨7, [(7, 0), (6, 0), (5, 0)], []⟩ : Heap Nat) 1 5).1.put
      ((CLookupPtr.mk [(2, 7)] true).put (⟨7, [(7, 0), (6, 0), (5, 0)], []⟩ : Heap Nat) 1 5).2
      1 6).2.freed.count 5 = 0 + 1 :=
  (CLookupPtr.overwrite_releases_once (CLookupPtr.mk [(2, 7)] true)
    (⟨7, [(7, 0), (6, 0), (5, 0)], []⟩ : Heap Nat) 1 5 6 rfl (by decide) (by decide)
    (by decide) _ rfl _ rfl 3 (by decide)).1

/-! ## C6 -/

/-- C6 as stated fails: after `put(1, 5)` and `put(2, 5)` on an empty owning store
nothing has been released, and the destructor releases the value `5` twice; and after
`put(1, 5)` and `put(1, 5)` the one stored value `5` has already been released by the
overwrite, and the destructor releases it a second time. -/
theorem CLookupPtr.dtor_release_counterexample :
    (CLookupPtr.run (CLookupPtr.ctor true, (⟨5, [(5, 0)], []⟩ : Heap Nat))
      [CLookupPtr.Call.put_ 1 5, CLookupPtr.Call.put_ 2 5]).2.freed = [] ∧
    (CLookupPtr.dtor 3
      (CLookupPtr.run (CLookupPtr.ctor true, (⟨5, [(5, 0)], []⟩ : Heap Nat))
        [CLookupPtr.Call.put_ 1 5, CLookupPtr.Call.put_ 2 5]).1
      (CLookupPtr.run (CLookupPtr.ctor true, (⟨5, [(5, 0)], []⟩ : Heap Nat))
        [CLookupPtr.Call.put_ 1 5, CLookupPtr.Call.put_ 2 5]).2).map
      (fun h => h.freed.count 5) = some 2 ∧
    (CLookupPtr.run (CLookupPtr.ctor true, (⟨5, [(5, 0)], []⟩ : Heap Nat))
      [CLookupPtr.Call.put_ 1 5, CLookupPtr.Call.put_ 1 5]).2.freed = [5] ∧
    (CLookupPtr.dtor 2
      (CLookupPtr.run (CLookupPtr.ctor true, (⟨5, [(5, 0)], []⟩ : Heap Nat))
        [CLookupPtr.Call.put_ 1 5, CLookupPtr.Call.put_ 1 5]).1
      (CLookupPtr.run (CLookupPtr.ctor true, (⟨5, [(5, 0)], []⟩ : Heap Nat))
        [CLookupPtr.Call.put_ 1 5, CLookupPtr.Call.put_ 1 5]).2).map
      (fun h => h.freed.count 5) = some 2 := by
  decide

/-- C6 (amended): let `st` be a state reached from an empty owning store by any
sequence of calls in which the stored values are pairwise distinct and none of them
has been released yet. Then the destructor ends; it releases the stored non-null
values, in iteration order, and nothing else; the keys are pairwise distinct; after
it every stored non-null value has been released exactly once in all; and the number
of releases of any value that is not stored is unchanged. -/
theorem CLookupPtr.dtor_releases_entries {T : Type} [Inhabited T] (h0 : Heap T)
    (cs : List CLookupPtr.Call) (st : CLookupPtr × Heap T)
    (hst : st = CLookupPtr.run (CLookupPtr.ctor true, h0) cs)
    (hnd : (st.1.m_impl.map Prod.snd).Nodup)
    (hunrel : ∀ p ∈ st.1.m_impl.map Prod.snd, p ∉ st.2.freed)
    (fuel : Nat) (hfuel : st.1.m_impl.length < fuel) :
    ∃ h1, CLookupPtr.dtor fuel st.1 st.2 = some h1 ∧
      h1.freed = st.2.freed ++ (st.1.m_impl.map Prod.snd).filter (fun p => p ≠ NULL) ∧
      (st.1.m_impl.map Prod.fst).Nodup ∧
      (∀ p ∈ st.1.m_impl.map Prod.snd, p ≠ NULL → h1.freed.count p = 1) ∧
      (∀ q, q ∉ st.1.m_impl.map Prod.snd → h1.freed.count q = st.2.freed.count q) := by
  have hown : st.1.m_freePointers = true := by
    rw [hst, CLookupPtr.freePointers_run]
    rfl
  have hkeys : (st.1.m_impl.map Prod.fst).Nodup := by
    rw [hst]
    exact CLookupPtr.nodup_keys_run cs _ List.nodup_nil
  have hfreed := Heap.freed_foldl_delete (st.1.m_impl.map Prod.snd) st.2
  refine ⟨_, CLookupPtr.dtor_owning fuel st.1 st.2 hown hfuel, hfreed, hkeys, ?_, ?_⟩
  · intro p hmem hp
    rw [hfreed, List.count_append, List.count_eq_zero_of_not_mem (hunrel p hmem),
      List.count_filter (by simpa using hp), List.count_eq_one_of_mem hnd hmem]
  · intro q hq
    have hqf : q ∉ (st.1.m_impl.map Prod.snd).filter (fun p => p ≠ NULL) :=
      fun hm => hq (List.mem_of_mem_filter hm)
    rw [hfreed, List.count_append, List.count_eq_zero_of_not_mem hqf]
    rfl

/-- Witness for C6 (amended): the store after `put(1, 5)`, `getOrCreate(2)` and
`put(3, NULL)`, which holds the distinct unreleased values `5`, `6` and `NULL`. -/
theorem CLookupPtr.dtor_releases_entries_witness :
    ∃ h1, CLookupPtr.dtor 4
        (CLookupPtr.run (CLookupPtr.ctor true, (⟨5, [(5, 0)], []⟩ : Heap Nat))
          [CLookupPtr.Call.put_ 1 5, CLookupPtr.Call.getOrCreate_ 2,
            CLookupPtr.Call.put_ 3 NULL]).1
        (CLookupPtr.run (CLookupPtr.ctor true, (⟨5, [(5, 0)], []⟩ : Heap Nat))
          [CLookupPtr.Call.put_ 1 5, CLookupPtr.Call.getOrCreate_ 2,
            CLookupPtr.Call.put_ 3 NULL]).2 = some h1 ∧
      h1.freed = [5, 6] :=
  have h := CLookupPtr.dtor_releases_entries (⟨5, [(5, 0)], []⟩ : Heap Nat)
    [CLookupPtr.Call.put_ 1 5, CLookupPtr.Call.getOrCreate_ 2, CLookupPtr.Call.put_ 3 NULL]
    _ rfl (by decide) (by decide) 4 (by decide)
  h.imp (fun _ hh => ⟨hh.1, hh.2.1⟩)

/-! ## C7 -/

/-- C7: `getOrCreate`. Let `r` be the outcome of `getOrCreate(k)` on any store and
heap. If `k` is absent, the returned pointer is the non-null address of a fresh
default-constructed object (beyond every address handed out before, nothing released),
the entries afterwards are the old ones plus `(k, fresh)`, and the ownership flag is
unchanged. If `k` is present, the call returns the stored value and changes neither
store nor heap. In both cases `exists(k)` is true afterwards, `get(k)` is the returned
pointer, and a second `getOrCreate(k)` returns the same pointer and changes nothing. -/
theorem CLookupPtr.getOrCreate_spec {T : Type} [Inhabited T] (s : CLookupPtr) (h : Heap T)
    (k : Ptr) (r : Ptr × CLookupPtr × Heap T) (hr : r = s.getOrCreate h k) :
    (s.exists k = false →
      r.1 ≠ NULL ∧ h.brk < r.1 ∧ r.2.2.brk = r.1 ∧
      r.2.2.read r.1 = some default ∧ r.2.2.freed = h.freed ∧
      (∀ q, q ≠ r.1 → r.2.2.read q = h.read q) ∧
      r.2.1.m_impl.Perm ((k, r.1) :: s.m_impl) ∧
      (∀ k2, k2 ≠ k → UMap.find r.2.1.m_impl k2 = UMap.find s.m_impl k2) ∧
      r.2.1.m_freePointers = s.m_freePointers) ∧
    (s.exists k = true → r = (s.get k, s, h)) ∧
    r.2.1.exists k = true ∧
    r.2.1.get k = r.1 ∧
    r.2.1.getOrCreate r.2.2 k = r := by
  cases hf : UMap.find s.m_impl k with
  | none =>
    have hr2 : r = (h.brk + 1, { s with m_impl := s.m_impl ++ [(k, h.brk + 1)] }, h.new.2) := by
      rw [hr]
      simp [CLookupPtr.getOrCreate, hf, UMap.assign, Heap.new]
    have hf2 : UMap.find (s.m_impl ++ [(k, h.brk + 1)]) k = some (h.brk + 1) := by
      rw [UMap.find_append_none _ _ _ hf]
      simp [UMap.find]
    subst hr2
    refine ⟨?_, ?_, ?_, ?_, ?_⟩
    · intro _
      refine ⟨by simp [NULL], Nat.lt_succ_self _, rfl, ?_, rfl, ?_, ?_, ?_, rfl⟩
      · simp [Heap.new, Heap.read, UMap.find]
      · intro q hq
        have : ¬ h.brk + 1 = q := fun e => hq e.symm
        simp [Heap.new, Heap.read, UMap.find, this]
      · simp only
        exact List.perm_append_comm
      · intro k2 hk2
        have h2 := UMap.find_assign_other s.m_impl k (h.brk + 1) k2 hk2
        simpa [UMap.assign, hf] using h2
    · intro he
      simp [CLookupPtr.exists, hf] at he
    · simp [CLookupPtr.exists, hf2]
    · simp [CLookupPtr.get, hf2]
    · simp [CLookupPtr.getOrCreate, hf2]
  | some v =>
    have hr2 : r = (v, s, h) := by
      rw [hr]
      simp [CLookupPtr.getOrCreate, hf]
    subst hr2
    refine ⟨?_, ?_, ?_, ?_, ?_⟩
    · intro he
      simp [CLookupPtr.exists, hf] at he
    · intro _
      simp [CLookupPtr.get, hf]
    · simp [CLookupPtr.exists, hf]
    · simp [CLookupPtr.get, hf]
    · simp [CLookupPtr.getOrCreate, hf]

/-- Witness for C7: `getOrCreate(2)` on an owning store that holds `(1, 5)`. -/
theorem CLookupPtr.getOrCreate_spec_witness :
    ((CLookupPtr.mk [(1, 5)] true).getOrCreate (⟨5, [(5, 0)], []⟩ : Heap Nat) 2).2.1.get 2 =
      ((CLookupPtr.mk [(1, 5)] true).getOrCreate (⟨5, [(5, 0)], []⟩ : Heap Nat) 2).1 :=
  (CLookupPtr.getOrCreate_spec (CLookupPtr.mk [(1, 5)] true) (⟨5, [(5, 0)], []⟩ : Heap Nat) 2
    _ rfl).2.2.2.1

/-! ## C8 -/

/-- C8: iteration completeness. For each of the four stores, after `n` `put` calls
with pairwise distinct keys on an empty store, a fresh iterator driven until `next`
returns false ends (any bound above `n` calls suffices) and yields a list of exactly
`n` pairs that is a permutation of the inserted (key, value) pairs, each key once.
For `CLookupAny` the values are the copies read through the stored pointers. -/
theorem iteration_complete {T : Type} [Inhabited T] (b : Bool) (h0 : Heap T)
    (ps : List (Ptr × Ptr)) (hps : (ps.map Prod.fst).Nodup)
    (qs : List (Ptr × Int)) (hqs : (qs.map Prod.fst).Nodup)
    (rs : List (Int × Int)) (hrs : (rs.map Prod.fst).Nodup)
    (D : T) (ts : List (Ptr × T)) (hts : (ts.map Prod.fst).Nodup) :
    (∀ fuel, ps.length < fuel → ∃ L,
      (CLookupPtr.CIterator.ctor (CLookupPtr.putAll (CLookupPtr.ctor b, h0) ps).1).drain fuel
        = some L ∧
      L.length = ps.length ∧ L.Perm ps ∧ (L.map Prod.fst).Nodup) ∧
    (∀ fuel, qs.length < fuel → ∃ L,
      (CLookupInt.CIterator.ctor (CLookupInt.ctor.putAll qs)).drain fuel = some L ∧
      L.length = qs.length ∧ L.Perm qs ∧ (L.map Prod.fst).Nodup) ∧
    (∀ fuel, rs.length < fuel → ∃ L,
      (CLookupIntInt.CIterator.ctor (CLookupIntInt.ctor.putAll rs)).drain fuel = some L ∧
      L.length = rs.length ∧ L.Perm rs ∧ (L.map Prod.fst).Nodup) ∧
    (∀ fuel, ts.length < fuel → ∃ L,
      (CLookupAny.CIterator.ctor (CLookupAny.putAll (CLookupAny.ctor D, h0) ts).1).drain
        (CLookupAny.putAll (CLookupAny.ctor D, h0) ts).2 fuel = some L ∧
      L.length = ts.length ∧ L.Perm (ts.map (fun e => (e.1, some e.2))) ∧
      (L.map Prod.fst).Nodup) := by
  have hp : (CLookupPtr.putAll (CLookupPtr.ctor b, h0) ps).1.m_impl = ps := by
    rw [CLookupPtr.impl_putAll_ptr, UMap.assignAll_distinct ps _ hps (fun _ _ => by rfl)]
    rfl
  have hq : (CLookupInt.ctor.putAll qs).m_impl = qs := by
    rw [CLookupInt.impl_putAll_int, UMap.assignAll_distinct qs _ hqs (fun _ _ => by rfl)]
    rfl
  have hr : (CLookupIntInt.ctor.putAll rs).m_impl = rs := by
    rw [CLookupIntInt.impl_putAll_intint, UMap.assignAll_distinct rs _ hrs (fun _ _ => by rfl)]
    rfl
  have ht : CLookupAny.entries (CLookupAny.putAll (CLookupAny.ctor D, h0) ts) =
      ts.map (fun e => (e.1, some e.2)) := by
    rw [CLookupAny.entries_putAll ts _ hts (fun _ _ => by rfl)]
    · rfl
    · intro e he
      simp [CLookupAny.ctor, CLookupPtr.ctor] at he
  have htlen : (CLookupAny.putAll (CLookupAny.ctor D, h0) ts).1.m_lookup_ptr.m_impl.length =
      ts.length := by
    have := congrArg List.length ht
    simpa [CLookupAny.entries] using this
  refine ⟨?_, ?_, ?_, ?_⟩
  · intro fuel hfuel
    refine ⟨ps, ?_, rfl, List.Perm.refl _, hps⟩
    rw [CLookupPtr.CIterator.drain_eq_ptr fuel _
      (by simpa [CLookupPtr.CIterator.ctor, hp] using hfuel)]
    simp [CLookupPtr.CIterator.ctor, hp]
  · intro fuel hfuel
    refine ⟨qs, ?_, rfl, List.Perm.refl _, hqs⟩
    rw [CLookupInt.CIterator.drain_eq_int fuel _
      (by simpa [CLookupInt.CIterator.ctor, hq] using hfuel)]
    simp [CLookupInt.CIterator.ctor, hq]
  · intro fuel hfuel
    refine ⟨rs, ?_, rfl, List.Perm.refl _, hrs⟩
    rw [CLookupIntInt.CIterator.drain_eq_intint fuel _
      (by simpa [CLookupIntInt.CIterator.ctor, hr] using hfuel)]
    simp [CLookupIntInt.CIterator.ctor, hr]
  · intro fuel hfuel
    refine ⟨ts.map (fun e => (e.1, some e.2)), ?_, by simp, List.Perm.refl _, ?_⟩
    · rw [CLookupAny.CIterator.drain_eq_any _ fuel _
        (by simpa [CLookupAny.CIterator.ctor, CLookupPtr.CIterator.ctor, htlen] using hfuel)]
      rw [← ht]
      rfl
    · simpa [List.map_map, Function.comp_def] using hts

/-- Witness for C8: three `put` calls with distinct keys on each store. -/
theorem iteration_complete_witness :
    ∃ L, (CLookupInt.CIterator.ctor (CLookupInt.ctor.putAll [(3, 7), (1, 0), (2, -4)])).drain 4
        = some L ∧
      L.length = 3 ∧ L.Perm [(3, 7), (1, 0), (2, -4)] ∧ (L.map Prod.fst).Nodup :=
  (iteration_complete true (⟨9, [], []⟩ : Heap Nat) [(1, 5), (2, 6), (3, 5)] (by decide)
    [(3, 7), (1, 0), (2, -4)] (by decide) [(0, 0), (-1, 2), (5, 5)] (by decide)
    (7 : Nat) [(1, 8), (2, 7), (4, 8)] (by decide)).2.1 4 (by decide)

/-! ## C9 -/

/-- C9: iterators are finite and restartable. For every `CLookupPtr`, `CLookupInt` and
`CLookupIntInt` store that is not modified while iterating, and every number `j` of
calls of `next` already made on a fresh iterator: the next call returns true exactly
when `j` is below the number of entries, with entry number `j` as outputs, and false
with the fixed outputs otherwise; and `reset()` at that point gives the fresh
iterator back, which driven to the end yields all entries in the same order. -/
theorem iterators_finite_restartable (sp : CLookupPtr) (si : CLookupInt)
    (sii : CLookupIntInt) (j : Nat) :
    (((CLookupPtr.CIterator.ctor sp).advance j).next.1 = decide (j < sp.m_impl.length) ∧
      (∀ hj : j < sp.m_impl.length,
        (((CLookupPtr.CIterator.ctor sp).advance j).next.1,
          ((CLookupPtr.CIterator.ctor sp).advance j).next.2.1,
          ((CLookupPtr.CIterator.ctor sp).advance j).next.2.2.1) =
          (true, sp.m_impl[j].1, sp.m_impl[j].2)) ∧
      (sp.m_impl.length ≤ j →
        (((CLookupPtr.CIterator.ctor sp).advance j).next.1,
          ((CLookupPtr.CIterator.ctor sp).advance j).next.2.1,
          ((CLookupPtr.CIterator.ctor sp).advance j).next.2.2.1) = (false, NULL, NULL)) ∧
      ((CLookupPtr.CIterator.ctor sp).advance j).reset = CLookupPtr.CIterator.ctor sp ∧
      ∀ fuel, sp.m_impl.length < fuel →
        (((CLookupPtr.CIterator.ctor sp).advance j).reset).drain fuel = some sp.m_impl ∧
        (CLookupPtr.CIterator.ctor sp).drain fuel = some sp.m_impl) ∧
    (((CLookupInt.CIterator.ctor si).advance j).next.1 = decide (j < si.m_impl.length) ∧
      (∀ hj : j < si.m_impl.length,
        (((CLookupInt.CIterator.ctor si).advance j).next.1,
          ((CLookupInt.CIterator.ctor si).advance j).next.2.1,
          ((CLookupInt.CIterator.ctor si).advance j).next.2.2.1) =
          (true, si.m_impl[j].1, si.m_impl[j].2)) ∧
      (si.m_impl.length ≤ j →
        (((CLookupInt.CIterator.ctor si).advance j).next.1,
          ((CLookupInt.CIterator.ctor si).advance j).next.2.1,
          ((CLookupInt.CIterator.ctor si).advance j).next.2.2.1) = (false, NULL, 0)) ∧
      ((CLookupInt.CIterator.ctor si).advance j).reset = CLookupInt.CIterator.ctor si ∧
      ∀ fuel, si.m_impl.length < fuel →
        (((CLookupInt.CIterator.ctor si).advance j).reset).drain fuel = some si.m_impl ∧
        (CLookupInt.CIterator.ctor si).drain fuel = some si.m_impl) ∧
    (((CLookupIntInt.CIterator.ctor sii).advance j).next.1 = decide (j < sii.m_impl.length) ∧
      (∀ hj : j < sii.m_impl.length,
        (((CLookupIntInt.CIterator.ctor sii).advance j).next.1,
          ((CLookupIntInt.CIterator.ctor sii).advance j).next.2.1,
          ((CLookupIntInt.CIterator.ctor sii).advance j).next.2.2.1) =
          (true, sii.m_impl[j].1, sii.m_impl[j].2)) ∧
      (sii.m_impl.length ≤ j →
        (((CLookupIntInt.CIterator.ctor sii).advance j).next.1,
          ((CLookupIntInt.CIterator.ctor sii).advance j).next.2.1,
          ((CLookupIntInt.CIterator.ctor sii).advance j).next.2.2.1) = (false, 0, 0)) ∧
      ((CLookupIntInt.CIterator.ctor sii).advance j).reset = CLookupIntInt.CIterator.ctor sii ∧
      ∀ fuel, sii.m_impl.length < fuel →
        (((CLookupIntInt.CIterator.ctor sii).advance j).reset).drain fuel = some sii.m_impl ∧
        (CLookupIntInt.CIterator.ctor sii).drain fuel = some sii.m_impl) := by
  have rp : ((CLookupPtr.CIterator.ctor sp).advance j).reset = CLookupPtr.CIterator.ctor sp := by
    simp only [CLookupPtr.CIterator.reset, CLookupPtr.CIterator.lookup_advance_ptr]
    rfl
  have ri : ((CLookupInt.CIterator.ctor si).advance j).reset = CLookupInt.CIterator.ctor si := by
    simp only [CLookupInt.CIterator.reset, CLookupInt.CIterator.lookup_advance_int]
    rfl
  have rii : ((CLookupIntInt.CIterator.ctor sii).advance j).reset =
      CLookupIntInt.CIterator.ctor sii := by
    simp only [CLookupIntInt.CIterator.reset, CLookupIntInt.CIterator.lookup_advance_intint]
    rfl
  have lp := CLookupPtr.CIterator.next_advance_lt_ptr j sp sp.m_impl
  have gp := CLookupPtr.CIterator.next_advance_ge_ptr j sp sp.m_impl
  have li := CLookupInt.CIterator.next_advance_lt_int j si si.m_impl
  have gi := CLookupInt.CIterator.next_advance_ge_int j si si.m_impl
  have lii := CLookupIntInt.CIterator.next_advance_lt_intint j sii sii.m_impl
  have gii := CLookupIntInt.CIterator.next_advance_ge_intint j sii sii.m_impl
  refine ⟨⟨flag_of_cases _ j _ _ _ _ lp gp, lp, gp, rp, ?_⟩,
    ⟨flag_of_cases _ j _ _ _ _ li gi, li, gi, ri, ?_⟩,
    ⟨flag_of_cases _ j _ _ _ _ lii gii, lii, gii, rii, ?_⟩⟩
  · intro fuel hfuel
    rw [rp]
    exact ⟨CLookupPtr.CIterator.drain_eq_ptr fuel _ hfuel,
      CLookupPtr.CIterator.drain_eq_ptr fuel _ hfuel⟩
  · intro fuel hfuel
    rw [ri]
    exact ⟨CLookupInt.CIterator.drain_eq_int fuel _ hfuel,
      CLookupInt.CIterator.drain_eq_int fuel _ hfuel⟩
  · intro fuel hfuel
    rw [rii]
    exact ⟨CLookupIntInt.CIterator.drain_eq_intint fuel _ hfuel,
      CLookupIntInt.CIterator.drain_eq_intint fuel _ hfuel⟩

/-- Witness for C9: a store with two entries, after three calls of `next`. -/
theorem iterators_finite_restartable_witness :
    (((CLookupPtr.CIterator.ctor (CLookupPtr.mk [(1, 5), (2, 6)] true)).advance 3).reset).drain 3
      = some [(1, 5), (2, 6)] :=
  ((iterators_finite_restartable (CLookupPtr.mk [(1, 5), (2, 6)] true)
    (CLookupInt.mk [(1, 5)]) (CLookupIntInt.mk []) 3).1.2.2.2.2 3 (by decide)).1

/-! ## C10 -/

/-- C10: queries on `CLookupPtr` have no side effect. For every store, heap and key,
the calls `get(k)` and `exists(k)` leave the store (its entries, their values, its
ownership flag) and the heap (live objects, release log) as they were; and when
`exists(k)` is false, `get(k)` returns `NULL` and `exists(k)` is still false after
it. -/
theorem CLookupPtr.queries_no_side_effect {T : Type} [Inhabited T]
    (st : CLookupPtr × Heap T) (k : Ptr) :
    (CLookupPtr.call st (CLookupPtr.Call.get_ k)).2 = st ∧
    (CLookupPtr.call st (CLookupPtr.Call.exists_ k)).2 = st ∧
    (CLookupPtr.call st (CLookupPtr.Call.get_ k)).1 = CLookupPtr.Ret.ptr (st.1.get k) ∧
    (CLookupPtr.call st (CLookupPtr.Call.exists_ k)).1 = CLookupPtr.Ret.flag (st.1.exists k) ∧
    (st.1.exists k = false →
      (CLookupPtr.call st (CLookupPtr.Call.get_ k)).1 = CLookupPtr.Ret.ptr NULL ∧
      (CLookupPtr.call st (CLookupPtr.Call.get_ k)).2.1.exists k = false) := by
  refine ⟨rfl, rfl, rfl, rfl, ?_⟩
  intro he
  refine ⟨?_, he⟩
  simp only [CLookupPtr.call]
  cases hf : UMap.find st.1.m_impl k with
  | none => simp [CLookupPtr.get, hf]
  | some v => simp [CLookupPtr.exists, hf] at he

/-- Witness for C10: `get(2)` on a store that holds key `1` only. -/
theorem CLookupPtr.queries_no_side_effect_witness :
    (CLookupPtr.call (CLookupPtr.mk [(1, 5)] true, (⟨5, [(5, 0)], []⟩ : Heap Nat))
        (CLookupPtr.Call.get_ 2)).1 = CLookupPtr.Ret.ptr NULL ∧
    (CLookupPtr.call (CLookupPtr.mk [(1, 5)] true, (⟨5, [(5, 0)], []⟩ : Heap Nat))
        (CLookupPtr.Call.get_ 2)).2.1.exists 2 = false :=
  (CLookupPtr.queries_no_side_effect
    (CLookupPtr.mk [(1, 5)] true, (⟨5, [(5, 0)], []⟩ : Heap Nat)) 2).2.2.2.2 (by decide)

/-! ## C11 -/

theorem CLookupAny.find_get_self_isSome {T : Type} [Inhabited T] (s : CLookupAny T)
    (h : Heap T) (k : Ptr) :
    (UMap.find (s.get h k).2.1.m_lookup_ptr.m_impl k).isSome = true := by
  simp only [CLookupAny.get]
  split
  · rw [CLookupPtr.find_put_self]
    rfl
  · rename_i hp
    cases hf : UMap.find s.m_lookup_ptr.m_impl k with
    | none => simp [CLookupPtr.get, hf] at hp
    | some p => simp [hf]

theorem CLookupAny.exists_eq_isSome {T : Type} (s : CLookupAny T) (k : Ptr) :
    s.exists k = (UMap.find s.m_lookup_ptr.m_impl k).isSome := by
  unfold CLookupAny.exists CLookupPtr.exists
  cases UMap.find s.m_lookup_ptr.m_impl k <;> rfl

theorem CLookupAny.exists_call {T : Type} [Inhabited T] (st : CLookupAny T × Heap T)
    (c : CLookupAny.Call T) (k : Ptr) :
    (CLookupAny.call st c).1.exists k = (st.1.exists k || c.touches k) := by
  cases c with
  | put_ k0 v =>
    by_cases hk : k0 = k
    · subst hk
      simp [CLookupAny.call, CLookupAny.exists_eq_isSome, CLookupAny.any_find_put_self,
        CLookupAny.Call.touches]
    · have hk2 : k ≠ k0 := fun e => hk e.symm
      simp [CLookupAny.call, CLookupAny.exists_eq_isSome,
        CLookupAny.any_find_put_other st.1 st.2 k0 v k hk2, CLookupAny.Call.touches, hk]
  | get_ k0 =>
    by_cases hk : k0 = k
    · subst hk
      simp [CLookupAny.call, CLookupAny.exists_eq_isSome, CLookupAny.find_get_self_isSome,
        CLookupAny.Call.touches]
    · have hk2 : k ≠ k0 := fun e => hk e.symm
      simp [CLookupAny.call, CLookupAny.exists_eq_isSome,
        CLookupAny.find_get_other st.1 st.2 k0 k hk2, CLookupAny.Call.touches, hk]
  | exists_ k0 => simp [CLookupAny.call, CLookupAny.Call.touches]

theorem CLookupAny.exists_run {T : Type} [Inhabited T] (cs : List (CLookupAny.Call T))
    (st : CLookupAny T × Heap T) (k : Ptr) :
    (CLookupAny.run st cs).1.exists k = (st.1.exists k || cs.any (fun c => c.touches k)) := by
  induction cs generalizing st with
  | nil => simp [CLookupAny.run]
  | cons c cs ih =>
    simp only [CLookupAny.run, List.any_cons]
    rw [ih, CLookupAny.exists_call, Bool.or_assoc]

/-- C11: `exists` of `CLookupAny` characterises the touched keys: for a store built
from the empty one by any finite sequence of `put`, `get` and `exists` calls,
`exists(k)` is true exactly when the sequence contains a `put(k, .)` or a `get(k)`. -/
theorem CLookupAny.exists_iff_touched {T : Type} [Inhabited T] (D : T) (h0 : Heap T)
    (cs : List (CLookupAny.Call T)) (k : Ptr) :
    (CLookupAny.run (CLookupAny.ctor D, h0) cs).1.exists k = true ↔
      ∃ c ∈ cs, (∃ v, c = CLookupAny.Call.put_ k v) ∨ c = CLookupAny.Call.get_ k := by
  rw [CLookupAny.exists_run]
  have h0e : (CLookupAny.ctor D, h0).1.exists k = false := rfl
  rw [h0e, Bool.false_or, List.any_eq_true]
  constructor
  · rintro ⟨c, hc, ht⟩
    refine ⟨c, hc, ?_⟩
    cases c with
    | put_ k0 v =>
      have : k0 = k := by simpa [CLookupAny.Call.touches] using ht
      exact Or.inl ⟨v, by rw [this]⟩
    | get_ k0 =>
      have : k0 = k := by simpa [CLookupAny.Call.touches] using ht
      exact Or.inr (by rw [this])
    | exists_ k0 => simp [CLookupAny.Call.touches] at ht
  · rintro ⟨c, hc, hput | hget⟩
    · obtain ⟨v, rfl⟩ := hput
      exact ⟨_, hc, by simp [CLookupAny.Call.touches]⟩
    · subst hget
      exact ⟨_, hc, by simp [CLookupAny.Call.touches]⟩

/-! ## C12 -/

/-- C12: `put` on the integer stores is an unconditional point update. For every
`CLookupInt` and `CLookupIntInt` store, key and value (the miss values `0` and `-1`
included): after `put(k, v)`, `get(k)` is `v` and `exists(k)` is true; a later
`put(k, v2)` makes `get(k)` return `v2`; and for every other key, `get` and `exists`
are as before the `put`. -/
theorem CLookupInt.put_point_update (s : CLookupInt) (k : Ptr) (v v2 : Int)
    (t : CLookupIntInt) (j : Int) (w w2 : Int) :
    ((s.put k v).get k = v ∧ (s.put k v).exists k = true ∧
      ((s.put k v).put k v2).get k = v2 ∧
      ∀ k2, k2 ≠ k → (s.put k v).get k2 = s.get k2 ∧ (s.put k v).exists k2 = s.exists k2) ∧
    ((t.put j w).get j = w ∧ (t.put j w).exists j = true ∧
      ((t.put j w).put j w2).get j = w2 ∧
      ∀ j2, j2 ≠ j → (t.put j w).get j2 = t.get j2 ∧ (t.put j w).exists j2 = t.exists j2) := by
  refine ⟨⟨?_, ?_, ?_, ?_⟩, ⟨?_, ?_, ?_, ?_⟩⟩
  · simp [CLookupInt.get, CLookupInt.put, UMap.find_assign_self]
  · simp [CLookupInt.exists, CLookupInt.put, UMap.find_assign_self]
  · simp [CLookupInt.get, CLookupInt.put, UMap.find_assign_self]
  · intro k2 hk2
    simp [CLookupInt.get, CLookupInt.exists, CLookupInt.put,
      UMap.find_assign_other s.m_impl k v k2 hk2]
  · simp [CLookupIntInt.get, CLookupIntInt.put, UMap.find_assign_self]
  · simp [CLookupIntInt.exists, CLookupIntInt.put, UMap.find_assign_self]
  · simp [CLookupIntInt.get, CLookupIntInt.put, UMap.find_assign_self]
  · intro j2 hj2
    simp [CLookupIntInt.get, CLookupIntInt.exists, CLookupIntInt.put,
      UMap.find_assign_other t.m_impl j w j2 hj2]

/-- Witness for C12: a `put` of the miss value on key `1`, read back at keys `1` and
`2`. -/
theorem CLookupInt.put_point_update_witness :
    ((CLookupInt.mk [(2, 9)]).put 1 0).get 2 = (CLookupInt.mk [(2, 9)]).get 2 ∧
    ((CLookupInt.mk [(2, 9)]).put 1 0).exists 2 = (CLookupInt.mk [(2, 9)]).exists 2 :=
  (CLookupInt.put_point_update (CLookupInt.mk [(2, 9)]) 1 0 3
    (CLookupIntInt.mk [(2, 9)]) 1 (-1) 3).1.2.2.2 2 (by decide)

/-! ## C13 -/

theorem CLookupPtr.freed_call_nonowning {T : Type} [Inhabited T] (st : CLookupPtr × Heap T)
    (c : CLookupPtr.Call) (hno : st.1.m_freePointers = false) :
    (CLookupPtr.call st c).2.2.freed = st.2.freed := by
  cases c with
  | get_ k => rfl
  | getOrCreate_ k =>
    simp only [CLookupPtr.call, CLookupPtr.getOrCreate]
    split <;> rfl
  | put_ k v =>
    simp only [CLookupPtr.call, CLookupPtr.put]
    split
    · rfl
    · simp [hno]
  | exists_ k => rfl

theorem CLookupPtr.freed_run_nonowning {T : Type} [Inhabited T] (cs : List CLookupPtr.Call)
    (st : CLookupPtr × Heap T) (hno : st.1.m_freePointers = false) :
    (CLookupPtr.run st cs).2.freed = st.2.freed := by
  induction cs generalizing st with
  | nil => rfl
  | cons c cs ih =>
    simp only [CLookupPtr.run]
    rw [ih _ (by rw [CLookupPtr.freePointers_call]; exact hno),
      CLookupPtr.freed_call_nonowning st c hno]

/-- C13: a non-owning `CLookupPtr` never releases a value. For every sequence of
`put`, `get`, `getOrCreate` and `exists` calls on a store constructed with
`freePointers = false`, the release log is the one the store was constructed with (no
overwrite released anything), and the destructor ends at once and returns the heap
unchanged, for any bound on its loop. -/
theorem CLookupPtr.nonowning_never_releases {T : Type} [Inhabited T] (h0 : Heap T)
    (cs : List CLookupPtr.Call) (fuel : Nat) :
    (CLookupPtr.run (CLookupPtr.ctor false, h0) cs).2.freed = h0.freed ∧
    CLookupPtr.dtor fuel (CLookupPtr.run (CLookupPtr.ctor false, h0) cs).1
        (CLookupPtr.run (CLookupPtr.ctor false, h0) cs).2 =
      some (CLookupPtr.run (CLookupPtr.ctor false, h0) cs).2 := by
  have hno : (CLookupPtr.run (CLookupPtr.ctor false, h0) cs).1.m_freePointers = false := by
    rw [CLookupPtr.freePointers_run]
    rfl
  refine ⟨CLookupPtr.freed_run_nonowning cs _ rfl, ?_⟩
  simp [CLookupPtr.dtor, hno]

/-! ## C19 -/

theorem CLookupPtr.getOrCreate_absent {T : Type} [Inhabited T] (s : CLookupPtr) (h : Heap T)
    (k : Ptr) (hf : UMap.find s.m_impl k = none) :
    s.getOrCreate h k =
      (h.brk + 1, { s with m_impl := s.m_impl ++ [(k, h.brk + 1)] }, h.new.2) := by
  simp [CLookupPtr.getOrCreate, hf, UMap.assign, Heap.new]

theorem CLookupPtr.getOrCreate_present {T : Type} [Inhabited T] (s : CLookupPtr) (h : Heap T)
    (k v : Ptr) (hf : UMap.find s.m_impl k = some v) : s.getOrCreate h k = (v, s, h) := by
  simp [CLookupPtr.getOrCreate, hf]

theorem CLookupPtr.find_getOrCreate_self {T : Type} [Inhabited T] (s : CLookupPtr)
    (h : Heap T) (k : Ptr) (hf : UMap.find s.m_impl k = none) :
    UMap.find (s.getOrCreate h k).2.1.m_impl k = some (h.brk + 1) := by
  rw [CLookupPtr.getOrCreate_absent s h k hf]
  simp only
  rw [UMap.find_append_none _ _ _ hf]
  simp [UMap.find]

theorem CLookupPtr.find_getOrCreate_other {T : Type} [Inhabited T] (s : CLookupPtr)
    (h : Heap T) (k k2 : Ptr) (hne : k2 ≠ k) :
    UMap.find (s.getOrCreate h k).2.1.m_impl k2 = UMap.find s.m_impl k2 := by
  cases hf : UMap.find s.m_impl k with
  | none =>
    rw [CLookupPtr.getOrCreate_absent s h k hf]
    have h2 := UMap.find_assign_other s.m_impl k (h.brk + 1) k2 hne
    simpa [UMap.assign, hf] using h2
  | some v => rw [CLookupPtr.getOrCreate_present s h k v hf]

/-- Calls that never pass `NULL` to `put` keep every stored pointer non-null. -/
theorem CLookupPtr.nonnull_call {T : Type} [Inhabited T] (st : CLookupPtr × Heap T)
    (c : CLookupPtr.Call) (hc : c.putsValue NULL = false)
    (hst : ∀ k p, UMap.find st.1.m_impl k = some p → p ≠ NULL) :
    ∀ k p, UMap.find (CLookupPtr.call st c).2.1.m_impl k = some p → p ≠ NULL := by
  intro k p hf
  cases c with
  | get_ k0 => exact hst k p hf
  | exists_ k0 => exact hst k p hf
  | put_ k0 v =>
    simp only [CLookupPtr.call] at hf
    by_cases hk : k = k0
    · subst hk
      rw [CLookupPtr.find_put_self] at hf
      rw [← Option.some.inj hf]
      simpa [CLookupPtr.Call.putsValue] using hc
    · rw [CLookupPtr.find_put_other st.1 st.2 k0 v k hk] at hf
      exact hst k p hf
  | getOrCreate_ k0 =>
    simp only [CLookupPtr.call] at hf
    by_cases hk : k = k0
    · subst hk
      cases hf0 : UMap.find st.1.m_impl k with
      | none =>
        rw [CLookupPtr.find_getOrCreate_self st.1 st.2 k hf0] at hf
        rw [← Option.some.inj hf]
        simp [NULL]
      | some v =>
        rw [CLookupPtr.getOrCreate_present st.1 st.2 k v hf0] at hf
        exact hst k p hf
    · rw [CLookupPtr.find_getOrCreate_other st.1 st.2 k0 k hk] at hf
      exact hst k p hf

theorem CLookupPtr.nonnull_run {T : Type} [Inhabited T] (cs : List CLookupPtr.Call)
    (st : CLookupPtr × Heap T)
    (hcs : ∀ c ∈ cs, c.putsValue NULL = false)
    (hst : ∀ k p, UMap.find st.1.m_impl k = some p → p ≠ NULL) :
    ∀ k p, UMap.find (CLookupPtr.run st cs).1.m_impl k = some p → p ≠ NULL := by
  induction cs generalizing st with
  | nil => exact hst
  | cons c cs ih =>
    exact ih _ (fun c2 h2 => hcs c2 (List.mem_cons_of_mem _ h2))
      (CLookupPtr.nonnull_call st c (hcs c (List.mem_cons_self _ _)) hst)

/-- C19: the `NULL` miss marker of `CLookupPtr::get` is reliable exactly when no
`NULL` was stored. For every store built from the empty one (owning or not) by calls
in which every value passed to `put` is non-null, `get(k)` is `NULL` if and only if
`exists(k)` is false; and after a `put(k, NULL)` on any store, `get(k)` is `NULL`
while `exists(k)` is true. -/
theorem CLookupPtr.null_marker_reliable {T : Type} [Inhabited T] (b : Bool) (h0 : Heap T)
    (cs : List CLookupPtr.Call)
    (hcs : ∀ c ∈ cs, c.putsValue NULL = false) (k : Ptr)
    (s : CLookupPtr) (h : Heap T) :
    ((CLookupPtr.run (CLookupPtr.ctor b, h0) cs).1.get k = NULL ↔
      (CLookupPtr.run (CLookupPtr.ctor b, h0) cs).1.exists k = false) ∧
    ((s.put h k NULL).1.get k = NULL ∧ (s.put h k NULL).1.exists k = true) := by
  have hnn := CLookupPtr.nonnull_run cs (CLookupPtr.ctor b, h0) hcs
    (fun k p hf => by simp [CLookupPtr.ctor, UMap.find] at hf)
  refine ⟨?_, ?_⟩
  · cases hf : UMap.find (CLookupPtr.run (CLookupPtr.ctor b, h0) cs).1.m_impl k with
    | none => simp [CLookupPtr.get, CLookupPtr.exists, hf]
    | some p =>
      have := hnn k p hf
      simp [CLookupPtr.get, CLookupPtr.exists, hf, this]
  · have hf := CLookupPtr.find_put_self s h k NULL
    simp [CLookupPtr.get, CLookupPtr.exists, hf]

/-- Witness for C19: an owning store after `put(1, 5)` and `getOrCreate(2)`, asked
for key `3`; and `put(3, NULL)` on a store that holds `(1, 5)`. -/
theorem CLookupPtr.null_marker_reliable_witness :
    ((CLookupPtr.run (CLookupPtr.ctor true, (⟨5, [(5, 0)], []⟩ : Heap Nat))
        [CLookupPtr.Call.put_ 1 5, CLookupPtr.Call.getOrCreate_ 2]).1.get 3 = NULL ↔
      (CLookupPtr.run (CLookupPtr.ctor true, (⟨5, [(5, 0)], []⟩ : Heap Nat))
        [CLookupPtr.Call.put_ 1 5, CLookupPtr.Call.getOrCreate_ 2]).1.exists 3 = false) ∧
    (((CLookupPtr.mk [(1, 5)] true).put (⟨5, [(5, 0)], []⟩ : Heap Nat) 3 NULL).1.get 3 = NULL ∧
      ((CLookupPtr.mk [(1, 5)] true).put (⟨5, [(5, 0)], []⟩ : Heap Nat) 3 NULL).1.exists 3
        = true) :=
  CLookupPtr.null_marker_reliable true (⟨5, [(5, 0)], []⟩ : Heap Nat)
    [CLookupPtr.Call.put_ 1 5, CLookupPtr.Call.getOrCreate_ 2]
    (by decide) 3 (CLookupPtr.mk [(1, 5)] true) (⟨5, [(5, 0)], []⟩ : Heap Nat)

/-! ## C20 -/

theorem CLookupPtr.CIterator.iterator_advance_ptr (j : Nat) (it : CLookupPtr.CIterator) :
    (advance j it).m_iterator = it.m_iterator.drop j := by
  induction j generalizing it with
  | zero => rfl
  | succ j ih =>
    obtain ⟨lk, rem⟩ := it
    cases rem with
    | nil => simpa [advance, next] using ih ⟨lk, []⟩
    | cons e rest =>
      obtain ⟨k, v⟩ := e
      simpa [advance, next] using ih ⟨lk, rest⟩

theorem CLookupInt.CIterator.iterator_advance_int (j : Nat) (it : CLookupInt.CIterator) :
    (advance j it).m_iterator = it.m_iterator.drop j := by
  induction j generalizing it with
  | zero => rfl
  | succ j ih =>
    obtain ⟨lk, rem⟩ := it
    cases rem with
    | nil => simpa [advance, next] using ih ⟨lk, []⟩
    | cons e rest =>
      obtain ⟨k, v⟩ := e
      simpa [advance, next] using ih ⟨lk, rest⟩

theorem CLookupIntInt.CIterator.iterator_advance_intint (j : Nat)
    (it : CLookupIntInt.CIterator) :
    (advance j it).m_iterator = it.m_iterator.drop j := by
  induction j generalizing it with
  | zero => rfl
  | succ j ih =>
    obtain ⟨lk, rem⟩ := it
    cases rem with
    | nil => simpa [advance, next] using ih ⟨lk, []⟩
    | cons e rest =>
      obtain ⟨k, v⟩ := e
      simpa [advance, next] using ih ⟨lk, rest⟩

theorem CLookupPtr.CIterator.next_of_end_ptr (it : CLookupPtr.CIterator)
    (hit : it.m_iterator = []) : it.next = (false, NULL, NULL, it) := by
  simp [next, hit]

theorem CLookupInt.CIterator.next_of_end_int (it : CLookupInt.CIterator)
    (hit : it.m_iterator = []) : it.next = (false, NULL, 0, it) := by
  simp [next, hit]

theorem CLookupIntInt.CIterator.next_of_end_intint (it : CLookupIntInt.CIterator)
    (hit : it.m_iterator = []) : it.next = (false, 0, 0, it) := by
  simp [next, hit]

/-- C20: outputs of an exhausted iterator. For every store and every number `j` of
calls of `next` already made that is at least the number of entries, the next call
returns false, leaves the iterator as it is, and sets the outputs to `(NULL, NULL)`
for `CLookupPtr`, `(NULL, 0)` for `CLookupInt` and `(0, 0)` for `CLookupIntInt`; the
exhausted value output `0` of `CLookupIntInt` differs from the `-1` that its `get`
returns for every absent key. -/
theorem exhausted_iterator_outputs (sp : CLookupPtr) (si : CLookupInt) (sii : CLookupIntInt)
    (j : Nat) (key : Int) :
    (sp.m_impl.length ≤ j →
      ((CLookupPtr.CIterator.ctor sp).advance j).next =
        (false, NULL, NULL, (CLookupPtr.CIterator.ctor sp).advance j)) ∧
    (si.m_impl.length ≤ j →
      ((CLookupInt.CIterator.ctor si).advance j).next =
        (false, NULL, 0, (CLookupInt.CIterator.ctor si).advance j)) ∧
    (sii.m_impl.length ≤ j →
      ((CLookupIntInt.CIterator.ctor sii).advance j).next =
        (false, 0, 0, (CLookupIntInt.CIterator.ctor sii).advance j) ∧
      (sii.exists key = false →
        sii.get key = -1 ∧
        ((CLookupIntInt.CIterator.ctor sii).advance j).next.2.2.1 ≠ sii.get key)) := by
  refine ⟨?_, ?_, ?_⟩
  · intro hj
    apply CLookupPtr.CIterator.next_of_end_ptr
    rw [CLookupPtr.CIterator.iterator_advance_ptr]
    exact List.drop_eq_nil_of_le hj
  · intro hj
    apply CLookupInt.CIterator.next_of_end_int
    rw [CLookupInt.CIterator.iterator_advance_int]
    exact List.drop_eq_nil_of_le hj
  · intro hj
    have hn : ((CLookupIntInt.CIterator.ctor sii).advance j).next =
        (false, 0, 0, (CLookupIntInt.CIterator.ctor sii).advance j) := by
      apply CLookupIntInt.CIterator.next_of_end_intint
      rw [CLookupIntInt.CIterator.iterator_advance_intint]
      exact List.drop_eq_nil_of_le hj
    refine ⟨hn, ?_⟩
    intro he
    have hg : sii.get key = -1 := by
      cases hf : UMap.find sii.m_impl key with
      | none => simp [CLookupIntInt.get, hf]
      | some v => simp [CLookupIntInt.exists, hf] at he
    refine ⟨hg, ?_⟩
    rw [hn, hg]
    show (0 : Int) ≠ -1
    decide

/-- Witness for C20: stores with two, one and one entries after two calls of `next`,
and the absent key `8` of the `CLookupIntInt`. -/
theorem exhausted_iterator_outputs_witness :
    ((CLookupPtr.CIterator.ctor (CLookupPtr.mk [(1, 5), (2, 6)] true)).advance 2).next =
      (false, NULL, NULL,
        (CLookupPtr.CIterator.ctor (CLookupPtr.mk [(1, 5), (2, 6)] true)).advance 2) ∧
    (CLookupIntInt.mk [(7, 3)]).get 8 = -1 :=
  have h := exhausted_iterator_outputs (CLookupPtr.mk [(1, 5), (2, 6)] true)
    (CLookupInt.mk [(1, 5)]) (CLookupIntInt.mk [(7, 3)]) 2 8
  ⟨h.1 (by decide), ((h.2.2 (by decide)).2 (by decide)).1⟩

/-! ## C14 -/

/-- Overwriting the entry found for a key changes that one entry and no other. -/
theorem CLookupPtr.setSecond_split (m : CLOOKUP_MAP_VOID) (k old v : Ptr)
    (hf : UMap.find m k = some old) :
    ∃ l1 l2, m = l1 ++ (k, old) :: l2 ∧ UMap.setSecond m k v = l1 ++ (k, v) :: l2 := by
  induction m with
  | nil => simp [UMap.find] at hf
  | cons e rest ih =>
    obtain ⟨k0, v0⟩ := e
    by_cases hk : k0 = k
    · subst hk
      simp only [UMap.find, if_true] at hf
      have hv : v0 = old := Option.some.inj hf
      subst hv
      exact ⟨[], rest, rfl, by simp [UMap.setSecond]⟩
    · simp only [UMap.find, hk, if_false] at hf
      obtain ⟨l1, l2, h1, h2⟩ := ih hf
      refine ⟨(k0, v0) :: l1, l2, by rw [h1]; rfl, ?_⟩
      simp [UMap.setSecond, hk, h2]

/-- In an owning store a `put` of a value other than `p` keeps the number of entries
holding `p` plus the number of releases of `p`. -/
theorem CLookupPtr.count_put_owning {T : Type} (s : CLookupPtr) (h : Heap T) (k v p : Ptr)
    (hown : s.m_freePointers = true) (hp : p ≠ NULL) (hv : v ≠ p) :
    ((s.put h k v).1.m_impl.map Prod.snd).count p + (s.put h k v).2.freed.count p =
      (s.m_impl.map Prod.snd).count p + h.freed.count p := by
  cases hf : UMap.find s.m_impl k with
  | none =>
    rw [CLookupPtr.impl_put_absent s h k v hf, CLookupPtr.heap_put_absent s h k v hf]
    simp [List.count_cons, hv]
  | some old =>
    obtain ⟨l1, l2, h1, h2⟩ := CLookupPtr.setSecond_split s.m_impl k old v hf
    rw [CLookupPtr.impl_put_present s h k v old hf, CLookupPtr.heap_put_present s h k v old hf,
      hown, if_pos rfl, Heap.freed_delete, h2, h1]
    by_cases ho : old = p
    · subst ho
      simp only [List.map_append, List.map_cons, List.count_append, List.count_cons, hp,
        if_false, beq_iff_eq, hv, List.count_nil, beq_self_eq_true, if_true]
      omega
    · by_cases hn : old = NULL
      · have hnp : ¬ NULL = p := fun e => hp e.symm
        simp [List.count_cons, hv, hn, hnp]
      · simp [List.count_cons, hv, ho, hn]


theorem CLookupPtr.count_getOrCreate {T : Type} [Inhabited T] (s : CLookupPtr) (h : Heap T)
    (k p : Ptr) (hp : p ≤ h.brk) :
    ((s.getOrCreate h k).2.1.m_impl.map Prod.snd).count p = (s.m_impl.map Prod.snd).count p ∧
    (s.getOrCreate h k).2.2.freed = h.freed ∧
    h.brk ≤ (s.getOrCreate h k).2.2.brk := by
  cases hf : UMap.find s.m_impl k with
  | none =>
    rw [CLookupPtr.getOrCreate_absent s h k hf]
    have hne : ¬ h.brk + 1 = p := Nat.ne_of_gt (Nat.lt_succ_of_le hp)
    refine ⟨?_, rfl, Nat.le_succ _⟩
    simp [List.count_cons, hne]
  | some v =>
    rw [CLookupPtr.getOrCreate_present s h k v hf]
    exact ⟨rfl, rfl, Nat.le_refl _⟩

/-- In an owning store, calls that never pass `p` to `put` keep the number of entries
holding `p` plus the number of releases of `p`. -/
theorem CLookupPtr.count_run_owning {T : Type} [Inhabited T] (cs : List CLookupPtr.Call)
    (st : CLookupPtr × Heap T) (p : Ptr) (hown : st.1.m_freePointers = true)
    (hp : p ≠ NULL) (hbrk : p ≤ st.2.brk) (hcs : ∀ c ∈ cs, c.putsValue p = false) :
    ((CLookupPtr.run st cs).1.m_impl.map Prod.snd).count p +
        (CLookupPtr.run st cs).2.freed.count p =
      (st.1.m_impl.map Prod.snd).count p + st.2.freed.count p := by
  induction cs generalizing st with
  | nil => rfl
  | cons c cs ih =>
    have hc := hcs c (List.mem_cons_self _ _)
    have hrest : ∀ c2 ∈ cs, c2.putsValue p = false :=
      fun c2 h2 => hcs c2 (List.mem_cons_of_mem _ h2)
    have hown2 : (CLookupPtr.call st c).2.1.m_freePointers = true := by
      rw [CLookupPtr.freePointers_call]
      exact hown
    simp only [CLookupPtr.run]
    cases c with
    | get_ k0 => exact ih st hown hbrk hrest
    | exists_ k0 => exact ih st hown hbrk hrest
    | getOrCreate_ k0 =>
      obtain ⟨h1, h2, h3⟩ := CLookupPtr.count_getOrCreate st.1 st.2 k0 p hbrk
      rw [ih _ hown2 (Nat.le_trans hbrk h3) hrest]
      simp only [CLookupPtr.call]
      rw [h1, h2]
    | put_ k0 v =>
      have hv : v ≠ p := by simpa [CLookupPtr.Call.putsValue] using hc
      rw [ih _ hown2 (by simp only [CLookupPtr.call]; rw [CLookupPtr.brk_put]; exact hbrk) hrest]
      exact CLookupPtr.count_put_owning st.1 st.2 k0 v p hown hp hv

/-- C14 as stated fails for a non-owning store: the object that `getOrCreate(1)`
allocates at address `1` is released neither by the destructor nor by an overwriting
`put(1, NULL)` followed by the destructor; it stays live in the heap. It also fails
in an owning store when the returned pointer is passed to `put(2, .)`: the
destructor then releases it twice. -/
theorem CLookupPtr.getOrCreate_leak_counterexample :
    ((CLookupPtr.ctor false).getOrCreate (⟨0, [], []⟩ : Heap Nat) 1).1 = 1 ∧
    CLookupPtr.dtor 2
      (CLookupPtr.run (CLookupPtr.ctor false, (⟨0, [], []⟩ : Heap Nat))
        [CLookupPtr.Call.getOrCreate_ 1]).1
      (CLookupPtr.run (CLookupPtr.ctor false, (⟨0, [], []⟩ : Heap Nat))
        [CLookupPtr.Call.getOrCreate_ 1]).2 = some ⟨1, [(1, 0)], []⟩ ∧
    CLookupPtr.dtor 2
      (CLookupPtr.run (CLookupPtr.ctor false, (⟨0, [], []⟩ : Heap Nat))
        [CLookupPtr.Call.getOrCreate_ 1, CLookupPtr.Call.put_ 1 NULL]).1
      (CLookupPtr.run (CLookupPtr.ctor false, (⟨0, [], []⟩ : Heap Nat))
        [CLookupPtr.Call.getOrCreate_ 1, CLookupPtr.Call.put_ 1 NULL]).2
      = some ⟨1, [(1, 0)], []⟩ ∧
    CLookupPtr.dtor 3
      (CLookupPtr.run (CLookupPtr.ctor true, (⟨0, [], []⟩ : Heap Nat))
        [CLookupPtr.Call.getOrCreate_ 1, CLookupPtr.Call.put_ 2 1]).1
      (CLookupPtr.run (CLookupPtr.ctor true, (⟨0, [], []⟩ : Heap Nat))
        [CLookupPtr.Call.getOrCreate_ 1, CLookupPtr.Call.put_ 2 1]).2
      = some ⟨1, [], [1, 1]⟩ := by
  decide

/-- C14 (amended): let `p` be the object that `getOrCreate(k)` allocates for an absent
key `k` of a store that does not already hold the address `p`, and let any calls
follow that never pass `p` to `put`. In an owning store the number of entries
holding `p` plus the number of releases of `p` stays one, and after the destructor,
which ends, `p` has been released exactly once. In a non-owning store `p` is never
released. -/
theorem CLookupPtr.getOrCreate_object_released {T : Type} [Inhabited T] (s : CLookupPtr)
    (h : Heap T) (k : Ptr) (habs : s.exists k = false)
    (r : Ptr × CLookupPtr × Heap T) (hr : r = s.getOrCreate h k)
    (hfresh : r.1 ∉ s.m_impl.map Prod.snd)
    (cs : List CLookupPtr.Call) (hcs : ∀ c ∈ cs, c.putsValue r.1 = false)
    (st : CLookupPtr × Heap T) (hst : st = CLookupPtr.run r.2 cs)
    (fuel : Nat) (hfuel : st.1.m_impl.length < fuel) :
    (s.m_freePointers = true →
      (st.1.m_impl.map Prod.snd).count r.1 + st.2.freed.count r.1 = h.freed.count r.1 + 1) ∧
    ∃ h1, CLookupPtr.dtor fuel st.1 st.2 = some h1 ∧
      h1.freed.count r.1 = h.freed.count r.1 + (if s.m_freePointers then 1 else 0) := by
  have hf : UMap.find s.m_impl k = none := by
    cases hf : UMap.find s.m_impl k with
    | none => rfl
    | some v => simp [CLookupPtr.exists, hf] at habs
  rw [CLookupPtr.getOrCreate_absent s h k hf] at hr
  subst hr
  simp only at hcs hst hfresh ⊢
  have hpn : h.brk + 1 ≠ NULL := by simp [NULL]
  have hnotheld : h.brk + 1 ∉ s.m_impl.map Prod.snd := hfresh
  have hflag : st.1.m_freePointers = s.m_freePointers := by
    rw [hst, CLookupPtr.freePointers_run]
  cases hown : s.m_freePointers with
  | true =>
    have hsum : (st.1.m_impl.map Prod.snd).count (h.brk + 1) + st.2.freed.count (h.brk + 1) =
        h.freed.count (h.brk + 1) + 1 := by
      rw [hst, CLookupPtr.count_run_owning cs _ (h.brk + 1) hown hpn (Nat.le_refl _) hcs]
      simp only [List.map_append, List.map_cons, List.map_nil, List.count_append,
        List.count_eq_zero_of_not_mem hnotheld, List.count_singleton_self]
      exact Nat.add_comm _ _
    refine ⟨fun _ => hsum, _,
      CLookupPtr.dtor_owning fuel st.1 st.2 (by rw [hflag]; exact hown) hfuel, ?_⟩
    rw [Heap.freed_foldl_delete, List.count_append, List.count_filter (by simpa using hpn),
      if_pos rfl, ← hsum]
    exact Nat.add_comm _ _
  | false =>
    refine ⟨fun hcon => absurd hcon (by simp), st.2, ?_, ?_⟩
    · simp [CLookupPtr.dtor, hflag, hown]
    · rw [hst, CLookupPtr.freed_run_nonowning cs _ hown]
      rfl

/-- Witness for C14 (amended): an owning store that holds `(2, 7)`; `getOrCreate(1)`
allocates address `8`, which `put(1, 6)` then overwrites with the object `6`. -/
theorem CLookupPtr.getOrCreate_object_released_witness :
    ∃ h1, CLookupPtr.dtor 3
        (CLookupPtr.run
          ((CLookupPtr.mk [(2, 7)] true).getOrCreate
            (⟨7, [(7, 0), (6, 0)], []⟩ : Heap Nat) 1).2
          [CLookupPtr.Call.get_ 1, CLookupPtr.Call.put_ 1 6]).1
        (CLookupPtr.run
          ((CLookupPtr.mk [(2, 7)] true).getOrCreate
            (⟨7, [(7, 0), (6, 0)], []⟩ : Heap Nat) 1).2
          [CLookupPtr.Call.get_ 1, CLookupPtr.Call.put_ 1 6]).2 = some h1 ∧
      h1.freed.count 8 = 0 + 1 :=
  (CLookupPtr.getOrCreate_object_released (CLookupPtr.mk [(2, 7)] true)
    (⟨7, [(7, 0), (6, 0)], []⟩ : Heap Nat) 1 (by decide) _ rfl (by decide)
    [CLookupPtr.Call.get_ 1, CLookupPtr.Call.put_ 1 6] (by decide) _ rfl 3 (by decide)).2

/-! ## C15 -/

theorem Heap.read_new_other {T : Type} [Inhabited T] (h : Heap T) (q : Ptr)
    (hne : q ≠ h.brk + 1) : h.new.2.read q = h.read q := by
  have : ¬ h.brk + 1 = q := fun e => hne e.symm
  simp [Heap.new, Heap.read, UMap.find, this]

theorem Heap.count_freed_delete_other {T : Type} (h : Heap T) (old p : Ptr) (hne : old ≠ p) :
    (h.delete old).freed.count p = h.freed.count p := by
  rw [Heap.freed_delete, List.count_append]
  by_cases hn : old = NULL
  · simp [hn]
  · simp [hn, List.count_cons, hne]

/-- One call that is neither a `put` on `k` nor a `put` of `p` keeps `p` stored under
`k` and under no other key, releases nothing equal to `p` and leaves the object `p`
as it is. -/
theorem CLookupPtr.valid_call {T : Type} [Inhabited T] (st : CLookupPtr × Heap T)
    (c : CLookupPtr.Call) (k p : Ptr)
    (hk : UMap.find st.1.m_impl k = some p)
    (hone : ∀ k2, k2 ≠ k → UMap.find st.1.m_impl k2 ≠ some p)
    (hbrk : p ≤ st.2.brk)
    (hkey : c.putsKey k = false) (hval : c.putsValue p = false) :
    UMap.find (CLookupPtr.call st c).2.1.m_impl k = some p ∧
    (∀ k2, k2 ≠ k → UMap.find (CLookupPtr.call st c).2.1.m_impl k2 ≠ some p) ∧
    p ≤ (CLookupPtr.call st c).2.2.brk ∧
    (CLookupPtr.call st c).2.2.freed.count p = st.2.freed.count p ∧
    (CLookupPtr.call st c).2.2.read p = st.2.read p := by
  cases c with
  | get_ k0 => exact ⟨hk, hone, hbrk, rfl, rfl⟩
  | exists_ k0 => exact ⟨hk, hone, hbrk, rfl, rfl⟩
  | getOrCreate_ k0 =>
    simp only [CLookupPtr.call]
    cases hf : UMap.find st.1.m_impl k0 with
    | some v =>
      rw [CLookupPtr.getOrCreate_present st.1 st.2 k0 v hf]
      exact ⟨hk, hone, hbrk, rfl, rfl⟩
    | none =>
      have hk0 : k ≠ k0 := by
        intro e
        rw [e, hf] at hk
        cases hk
      have hpne : p ≠ st.2.brk + 1 := Nat.ne_of_lt (Nat.lt_succ_of_le hbrk)
      refine ⟨?_, ?_, ?_, ?_, ?_⟩
      · rw [CLookupPtr.find_getOrCreate_other st.1 st.2 k0 k hk0]
        exact hk
      · intro k2 hk2
        by_cases h20 : k2 = k0
        · subst h20
          rw [CLookupPtr.find_getOrCreate_self st.1 st.2 k2 hf]
          intro e
          exact hpne (Option.some.inj e).symm
        · rw [CLookupPtr.find_getOrCreate_other st.1 st.2 k0 k2 h20]
          exact hone k2 hk2
      · rw [CLookupPtr.getOrCreate_absent st.1 st.2 k0 hf]
        exact Nat.le_succ_of_le hbrk
      · rw [CLookupPtr.getOrCreate_absent st.1 st.2 k0 hf]
        rfl
      · rw [CLookupPtr.getOrCreate_absent st.1 st.2 k0 hf]
        exact Heap.read_new_other st.2 p hpne
  | put_ k0 v =>
    have hk0 : k0 ≠ k := by simpa [CLookupPtr.Call.putsKey] using hkey
    have hk0s : k ≠ k0 := fun e => hk0 e.symm
    have hv : v ≠ p := by simpa [CLookupPtr.Call.putsValue] using hval
    have hold : ∀ old, UMap.find st.1.m_impl k0 = some old → p ≠ old := by
      intro old ho e
      rw [← e] at ho
      exact hone k0 hk0 ho
    simp only [CLookupPtr.call]
    refine ⟨?_, ?_, ?_, ?_, ?_⟩
    · rw [CLookupPtr.find_put_other st.1 st.2 k0 v k hk0s]
      exact hk
    · intro k2 hk2
      by_cases h20 : k2 = k0
      · subst h20
        rw [CLookupPtr.find_put_self]
        intro e
        exact hv (Option.some.inj e)
      · rw [CLookupPtr.find_put_other st.1 st.2 k0 v k2 h20]
        exact hone k2 hk2
    · rw [CLookupPtr.brk_put]
      exact hbrk
    · cases hf : UMap.find st.1.m_impl k0 with
      | none => rw [CLookupPtr.heap_put_absent st.1 st.2 k0 v hf]
      | some old =>
        rw [CLookupPtr.heap_put_present st.1 st.2 k0 v old hf]
        split
        · exact Heap.count_freed_delete_other st.2 old p (fun e => hold old hf e.symm)
        · rfl
    · exact CLookupPtr.read_put_other st.1 st.2 k0 v p hold

theorem CLookupPtr.valid_run {T : Type} [Inhabited T] (cs : List CLookupPtr.Call)
    (st : CLookupPtr × Heap T) (k p : Ptr)
    (hk : UMap.find st.1.m_impl k = some p)
    (hone : ∀ k2, k2 ≠ k → UMap.find st.1.m_impl k2 ≠ some p)
    (hbrk : p ≤ st.2.brk)
    (hkey : ∀ c ∈ cs, c.putsKey k = false) (hval : ∀ c ∈ cs, c.putsValue p = false) :
    UMap.find (CLookupPtr.run st cs).1.m_impl k = some p ∧
    (CLookupPtr.run st cs).2.freed.count p = st.2.freed.count p ∧
    (CLookupPtr.run st cs).2.read p = st.2.read p := by
  induction cs generalizing st with
  | nil => exact ⟨hk, rfl, rfl⟩
  | cons c cs ih =>
    obtain ⟨h1, h2, h3, h4, h5⟩ := CLookupPtr.valid_call st c k p hk hone hbrk
      (hkey c (List.mem_cons_self _ _)) (hval c (List.mem_cons_self _ _))
    obtain ⟨i1, i2, i3⟩ := ih (CLookupPtr.call st c).2 h1 h2 h3
      (fun c2 hc2 => hkey c2 (List.mem_cons_of_mem _ hc2))
      (fun c2 hc2 => hval c2 (List.mem_cons_of_mem _ hc2))
    simp only [CLookupPtr.run]
    exact ⟨i1, by rw [i2, h4], by rw [i3, h5]⟩

theorem CLookupPtr.getOrCreate_present_after {T : Type} [Inhabited T] (s : CLookupPtr)
    (h : Heap T) (k : Ptr) :
    UMap.find (s.getOrCreate h k).2.1.m_impl k = some (s.getOrCreate h k).1 := by
  cases hf : UMap.find s.m_impl k with
  | none =>
    rw [CLookupPtr.find_getOrCreate_self s h k hf, CLookupPtr.getOrCreate_absent s h k hf]
  | some v =>
    rw [CLookupPtr.getOrCreate_present s h k v hf]
    exact hf

theorem CLookupPtr.mem_of_find (m : CLOOKUP_MAP_VOID) (k v : Ptr)
    (hf : UMap.find m k = some v) : (k, v) ∈ m := by
  induction m with
  | nil => simp [UMap.find] at hf
  | cons e rest ih =>
    obtain ⟨k0, v0⟩ := e
    by_cases hk : k0 = k
    · simp [UMap.find, hk] at hf
      simp [hk, hf]
    · simp only [UMap.find, hk, if_false] at hf
      exact List.mem_cons_of_mem _ (ih hf)

/-- C15 as stated fails: in an owning store built by `put(1, 5)` and `put(2, 5)`,
`getOrCreate(1)` returns `5`, and the later `put(2, 6)`, a `put` on a different key,
releases `5` and destroys the object. Likewise on an empty owning store, after
`getOrCreate(1)` has returned the fresh address `1` and `put(2, 1)` has stored it
again, `put(2, NULL)` on the different key `2` releases it. -/
theorem CLookupPtr.getOrCreate_validity_counterexample :
    ((CLookupPtr.run (CLookupPtr.ctor true, (⟨6, [(6, 0), (5, 0)], []⟩ : Heap Nat))
        [CLookupPtr.Call.put_ 1 5, CLookupPtr.Call.put_ 2 5]).1.getOrCreate
      (CLookupPtr.run (CLookupPtr.ctor true, (⟨6, [(6, 0), (5, 0)], []⟩ : Heap Nat))
        [CLookupPtr.Call.put_ 1 5, CLookupPtr.Call.put_ 2 5]).2 1).1 = 5 ∧
    (CLookupPtr.run (CLookupPtr.ctor true, (⟨6, [(6, 0), (5, 0)], []⟩ : Heap Nat))
      [CLookupPtr.Call.put_ 1 5, CLookupPtr.Call.put_ 2 5, CLookupPtr.Call.getOrCreate_ 1]).2
      = ⟨6, [(6, 0), (5, 0)], []⟩ ∧
    (CLookupPtr.run (CLookupPtr.ctor true, (⟨6, [(6, 0), (5, 0)], []⟩ : Heap Nat))
      [CLookupPtr.Call.put_ 1 5, CLookupPtr.Call.put_ 2 5, CLookupPtr.Call.getOrCreate_ 1,
        CLookupPtr.Call.put_ 2 6]).2 = ⟨6, [(6, 0)], [5]⟩ ∧
    (CLookupPtr.run (CLookupPtr.ctor true, (⟨0, [], []⟩ : Heap Nat))
      [CLookupPtr.Call.getOrCreate_ 1, CLookupPtr.Call.put_ 2 1,
        CLookupPtr.Call.put_ 2 NULL]).2 = ⟨1, [], [1]⟩ := by
  decide

/-- C15 (amended): let `p` be the pointer `getOrCreate(k)` returns, handed out by
`new` and held by no entry of the store other than the one of `k`. Then after any later calls
none of which is a `put` on `k` or passes `p` to `put` (other `put`, `get`, `exists`
and `getOrCreate` calls), `p` has not been released, the object is the same as
before, and `get(k)` still returns `p`. -/
theorem CLookupPtr.getOrCreate_reference_valid {T : Type} [Inhabited T] (s : CLookupPtr)
    (h : Heap T) (k : Ptr) (r : Ptr × CLookupPtr × Heap T) (hr : r = s.getOrCreate h k)
    (hbrk : r.1 ≤ r.2.2.brk)
    (hone : ∀ e ∈ r.2.1.m_impl, e.2 = r.1 → e.1 = k)
    (cs : List CLookupPtr.Call) (hkey : ∀ c ∈ cs, c.putsKey k = false)
    (hval : ∀ c ∈ cs, c.putsValue r.1 = false) :
    (CLookupPtr.run r.2 cs).2.freed.count r.1 = r.2.2.freed.count r.1 ∧
    (CLookupPtr.run r.2 cs).2.read r.1 = r.2.2.read r.1 ∧
    (CLookupPtr.run r.2 cs).1.get k = r.1 := by
  have hk : UMap.find r.2.1.m_impl k = some r.1 := by
    have hspec := CLookupPtr.getOrCreate_present_after s h k
    rw [hr]
    exact hspec
  have hone2 : ∀ k2, k2 ≠ k → UMap.find r.2.1.m_impl k2 ≠ some r.1 :=
    fun k2 hk2 hf => hk2 (hone _ (CLookupPtr.mem_of_find _ _ _ hf) rfl)
  obtain ⟨h1, h2, h3⟩ := CLookupPtr.valid_run cs r.2 k r.1 hk hone2 hbrk hkey hval
  exact ⟨h2, h3, by simp [CLookupPtr.get, h1]⟩

/-- Witness for C15 (amended): an owning store that holds `(2, 7)`; `getOrCreate(1)`
returns the fresh address `8`; then `put(2, 6)`, `getOrCreate(3)` and `get(1)`. -/
theorem CLookupPtr.getOrCreate_reference_valid_witness :
    (CLookupPtr.run
        ((CLookupPtr.mk [(2, 7)] true).getOrCreate (⟨7, [(7, 0), (6, 0)], []⟩ : Heap Nat) 1).2
        [CLookupPtr.Call.put_ 2 6, CLookupPtr.Call.getOrCreate_ 3,
          CLookupPtr.Call.get_ 1]).2.freed.count 8 = 0 :=
  (CLookupPtr.getOrCreate_reference_valid (CLookupPtr.mk [(2, 7)] true)
    (⟨7, [(7, 0), (6, 0)], []⟩ : Heap Nat) 1 _ rfl (by decide) (by decide)
    [CLookupPtr.Call.put_ 2 6, CLookupPtr.Call.getOrCreate_ 3, CLookupPtr.Call.get_ 1]
    (by decide) (by decide)).1

/-! ## C16 -/

theorem GameGraph.mem_edges_of_mem_outgoing (g : GameGraph) (v d : Ptr)
    (hd : d ∈ g.outgoing v) : (v, d) ∈ g.edges := by
  unfold GameGraph.outgoing at hd
  obtain ⟨e, he, hed⟩ := List.mem_map.mp hd
  obtain ⟨hmem, hsrc⟩ := List.mem_filter.mp he
  have h1 : e.1 = v := by simpa using hsrc
  have : e = (v, d) := by
    rw [← h1, ← hed]
  rw [← this]
  exact hmem

/-- The walk over the policy-side vertices ends without error when each of them has
an outgoing edge; it records edges of the graph only, and an entry for every vertex
it handles, keeping the entries it started with. -/
theorem StrategyVector.initializeFrom_spec (g : GameGraph) (rnd : Nat → Nat)
    (vs : List Ptr) (i : Nat) (acc : List (Ptr × Ptr))
    (hvs : ∀ v ∈ vs, g.outgoing v ≠ [])
    (hacc : ∀ v d, UMap.find acc v = some d → (v, d) ∈ g.edges) :
    ∃ res, StrategyVector.initializeFrom g rnd i vs acc = some res ∧
      (∀ v d, UMap.find res v = some d → (v, d) ∈ g.edges) ∧
      (∀ v ∈ vs, (UMap.find res v).isSome = true) ∧
      (∀ v, (UMap.find acc v).isSome = true → (UMap.find res v).isSome = true) := by
  induction vs generalizing i acc with
  | nil => exact ⟨acc, rfl, hacc, fun v hv => absurd hv (List.not_mem_nil v), fun _ hv => hv⟩
  | cons v vs ih =>
    have hne : g.outgoing v ≠ [] := hvs v (List.mem_cons_self _ _)
    have hlen : 0 < (g.outgoing v).length := List.length_pos.mpr hne
    have hidx : rnd i % (g.outgoing v).length < (g.outgoing v).length := Nat.mod_lt _ hlen
    have hget : (g.outgoing v)[rnd i % (g.outgoing v).length]? =
        some ((g.outgoing v)[rnd i % (g.outgoing v).length]) := List.getElem?_eq_getElem hidx
    have hedge : (v, (g.outgoing v)[rnd i % (g.outgoing v).length]) ∈ g.edges :=
      g.mem_edges_of_mem_outgoing v _ (List.getElem_mem hidx)
    have hacc2 : ∀ w d, UMap.find (UMap.assign acc v
        ((g.outgoing v)[rnd i % (g.outgoing v).length])) w = some d → (w, d) ∈ g.edges := by
      intro w d hf
      by_cases hw : w = v
      · subst hw
        rw [UMap.find_assign_self] at hf
        rw [← Option.some.inj hf]
        exact hedge
      · rw [UMap.find_assign_other acc v _ w hw] at hf
        exact hacc w d hf
    obtain ⟨res, hres, h1, h2, h3⟩ := ih (i + 1) _
      (fun w hw => hvs w (List.mem_cons_of_mem _ hw)) hacc2
    refine ⟨res, ?_, h1, ?_, ?_⟩
    · simp only [StrategyVector.initializeFrom, hget]
      exact hres
    · intro w hw
      rcases List.mem_cons.mp hw with hwv | hwvs
      · subst hwv
        apply h3
        rw [UMap.find_assign_self]
        rfl
      · exact h2 w hwvs
    · intro w hw
      apply h3
      by_cases hwv : w = v
      · subst hwv
        rw [UMap.find_assign_self]
        rfl
      · rw [UMap.find_assign_other acc v _ w hwv]
        exact hw

/-- C16: strategy coverage. For every game graph in which every policy-side vertex
has an outgoing edge and for every outcome `rnd` of the random draws,
`initializeRandomStrategy` ends without error, and afterwards `getSuccessor(v)` is
defined for every policy-side vertex `v` and is the destination of an edge of the
graph that leaves `v`. On the graph of the test, `getSuccessor(s1)` is `s2` or
`s3`. -/
theorem StrategyVector.strategy_coverage (g : GameGraph) (rnd : Nat → Nat)
    (hg : ∀ v ∈ g.V0, g.outgoing v ≠ []) :
    (∃ vec, StrategyVector.initializeRandomStrategy g rnd = some vec ∧
      ∀ v ∈ g.V0, ∃ d, vec.getSuccessor v = some d ∧ (v, d) ∈ g.edges) ∧
    (∃ vec, StrategyVector.initializeRandomStrategy testSimpleTestGraph rnd = some vec ∧
      (vec.getSuccessor 1 = some 2 ∨ vec.getSuccessor 1 = some 3)) := by
  have gen : ∀ g2 : GameGraph, (∀ v ∈ g2.V0, g2.outgoing v ≠ []) →
      ∃ vec, StrategyVector.initializeRandomStrategy g2 rnd = some vec ∧
        ∀ v ∈ g2.V0, ∃ d, vec.getSuccessor v = some d ∧ (v, d) ∈ g2.edges := by
    intro g2 hg2
    obtain ⟨res, hres, h1, h2, _⟩ := StrategyVector.initializeFrom_spec g2 rnd g2.V0 0 [] hg2
      (fun v d hf => by simp [UMap.find] at hf)
    refine ⟨⟨res⟩, by simp [StrategyVector.initializeRandomStrategy, hres], ?_⟩
    intro v hv
    have hs := h2 v hv
    cases hf : UMap.find res v with
    | none => simp [hf] at hs
    | some d => exact ⟨d, hf, h1 v d hf⟩
  refine ⟨gen g hg, ?_⟩
  obtain ⟨vec, hvec, hall⟩ := gen testSimpleTestGraph (by decide)
  obtain ⟨d, hd, hedge⟩ := hall 1 (by decide)
  refine ⟨vec, hvec, ?_⟩
  have : d = 2 ∨ d = 3 := by
    simpa [testSimpleTestGraph] using hedge
  rcases this with h2 | h3
  · exact Or.inl (by rw [hd, h2])
  · exact Or.inr (by rw [hd, h3])

/-- Witness for C16: the graph of the test with every draw equal to `1`. -/
theorem StrategyVector.strategy_coverage_witness :
    ∃ vec, StrategyVector.initializeRandomStrategy testSimpleTestGraph (fun _ => 1) = some vec ∧
      ∀ v ∈ testSimpleTestGraph.V0, ∃ d, vec.getSuccessor v = some d ∧
        (v, d) ∈ testSimpleTestGraph.edges :=
  (StrategyVector.strategy_coverage testSimpleTestGraph (fun _ => 1) (by decide)).1

/-! ## C17 -/

theorem Heap.accounted_append (b0 : Nat) (vals freed : List Nat) (brk : Nat)
    (hA : Heap.Accounted b0 vals freed brk) :
    Heap.Accounted b0 (vals ++ [brk + 1]) freed (brk + 1) := by
  obtain ⟨hnd, hv, hf, hall, hb⟩ := hA
  have hnew : brk + 1 ∉ vals := fun hm => by
    have := (hv _ hm).2.2.1
    omega
  refine ⟨?_, ?_, ?_, ?_, by omega⟩
  · exact List.Nodup.append hnd (List.nodup_singleton _)
      (fun a ha hb2 => hnew (by rw [← List.mem_singleton.mp hb2]; exact ha))
  · intro p hp
    rcases List.mem_append.mp hp with h1 | h1
    · obtain ⟨a1, a2, a3, a4⟩ := hv p h1
      exact ⟨a1, a2, by omega, a4⟩
    · have hpe : p = brk + 1 := List.mem_singleton.mp h1
      refine ⟨by rw [hpe]; simp [NULL], by omega, by omega, ?_⟩
      intro hm
      have := hf p hm
      omega
  · intro a ha
    have := hf a ha
    omega
  · intro a h1 h2
    by_cases hab : a = brk + 1
    · exact Or.inl (by rw [hab]; simp)
    · rcases hall a h1 (by omega) with h3 | h3
      · exact Or.inl (List.mem_append_left _ h3)
      · exact Or.inr h3

theorem Heap.accounted_replace (b0 : Nat) (v1 v2 freed : List Nat) (old brk : Nat)
    (hA : Heap.Accounted b0 (v1 ++ old :: v2) freed brk) :
    Heap.Accounted b0 (v1 ++ (brk + 1) :: v2) (freed ++ [old]) (brk + 1) := by
  obtain ⟨hnd, hv, hf, hall, hb⟩ := hA
  have hmem : ∀ x, x ∈ v1 ++ old :: v2 ↔ x = old ∨ x ∈ v1 ∨ x ∈ v2 := by
    intro x
    simp only [List.mem_append, List.mem_cons]
    tauto
  have hmem2 : ∀ x, x ∈ v1 ++ (brk + 1) :: v2 ↔ x = brk + 1 ∨ x ∈ v1 ∨ x ∈ v2 := by
    intro x
    simp only [List.mem_append, List.mem_cons]
    tauto
  have hnd2 : (old :: (v1 ++ v2)).Nodup := List.nodup_middle.mp hnd
  have hold12 : old ∉ v1 ++ v2 := (List.nodup_cons.mp hnd2).1
  have hnd12 : (v1 ++ v2).Nodup := (List.nodup_cons.mp hnd2).2
  have hle : ∀ x, x ∈ v1 ∨ x ∈ v2 → x ≤ brk ∧ x ≠ old ∧ x ∉ freed ∧ x ≠ NULL ∧ b0 < x := by
    intro x hx
    obtain ⟨a1, a2, a3, a4⟩ := hv x ((hmem x).mpr (Or.inr hx))
    refine ⟨a3, ?_, a4, a1, a2⟩
    intro e
    rw [e] at hx
    exact hold12 (List.mem_append.mpr hx)
  obtain ⟨o1, o2, o3, o4⟩ := hv old ((hmem old).mpr (Or.inl rfl))
  refine ⟨?_, ?_, ?_, ?_, by omega⟩
  · apply List.nodup_middle.mpr
    refine List.nodup_cons.mpr ⟨?_, hnd12⟩
    intro hm
    have := (hle _ (List.mem_append.mp hm)).1
    omega
  · intro p hp
    rcases (hmem2 p).mp hp with h1 | h1
    · refine ⟨by rw [h1]; simp [NULL], by omega, by omega, ?_⟩
      intro hm
      rcases List.mem_append.mp hm with h2 | h2
      · have := hf p h2
        omega
      · have : p = old := List.mem_singleton.mp h2
        omega
    · obtain ⟨a1, a2, a3, a4, a5⟩ := hle p h1
      refine ⟨a4, a5, by omega, ?_⟩
      intro hm
      rcases List.mem_append.mp hm with h2 | h2
      · exact a3 h2
      · exact a2 (List.mem_singleton.mp h2)
  · intro a ha
    rcases List.mem_append.mp ha with h2 | h2
    · have := hf a h2
      omega
    · have : a = old := List.mem_singleton.mp h2
      omega
  · intro a h1 h2
    by_cases hab : a = brk + 1
    · exact Or.inl ((hmem2 a).mpr (Or.inl hab))
    · rcases hall a h1 (by omega) with h3 | h3
      · rcases (hmem a).mp h3 with h4 | h4
        · right
          rw [List.count_append, h4, List.count_eq_zero_of_not_mem o4]
          simp
        · exact Or.inl ((hmem2 a).mpr (Or.inr h4))
      · right
        have hain : a ∈ freed := List.count_pos_iff.mp (by omega)
        have hne : a ≠ old := fun e => o4 (e ▸ hain)
        rw [List.count_append, h3]
        simp [List.count_cons, hne.symm]


theorem CLookupAny.HeapInv_ctor {T : Type} (D : T) (h0 : Heap T)
    (hwf : ∀ a ∈ h0.freed, a ≤ h0.brk) : CLookupAny.HeapInv h0.brk (CLookupAny.ctor D, h0) := by
  refine ⟨rfl, List.nodup_nil, List.nodup_nil, ?_, hwf, ?_, Nat.le_refl _⟩
  · intro p hp
    simp [CLookupAny.ctor, CLookupPtr.ctor] at hp
  · intro a h1 h2
    exact absurd h2 (Nat.not_le_of_lt h1)

theorem CLookupAny.HeapInv_put {T : Type} [Inhabited T] (b0 : Nat)
    (st : CLookupAny T × Heap T) (hinv : CLookupAny.HeapInv b0 st) (k : Ptr) (v : T) :
    CLookupAny.HeapInv b0 (st.1.put st.2 k v) := by
  obtain ⟨s, h⟩ := st
  obtain ⟨hown, hkeys, hacc⟩ := hinv
  simp only at hown hkeys hacc
  rw [CLookupAny.put_eq]
  refine ⟨?_, ?_, ?_⟩
  · simp only
    rw [CLookupPtr.freePointers_put]
    exact hown
  · simp only
    rw [CLookupPtr.impl_put]
    exact CLookupPtr.nodup_keys_assign _ _ _ hkeys
  · simp only
    cases hf : UMap.find s.m_lookup_ptr.m_impl k with
    | none =>
      rw [CLookupPtr.impl_put_absent _ _ _ _ hf, CLookupPtr.heap_put_absent _ _ _ _ hf]
      simp only [List.map_append, List.map_cons, List.map_nil]
      exact Heap.accounted_append b0 _ _ _ hacc
    | some old =>
      obtain ⟨l1, l2, h1, h2⟩ := CLookupPtr.setSecond_split s.m_lookup_ptr.m_impl k old
        (h.brk + 1) hf
      have hold : old ≠ NULL :=
        (hacc.2.1 old (CLookupPtr.mem_values_of_find _ _ _ hf)).1
      rw [CLookupPtr.impl_put_present _ _ _ _ old hf,
        CLookupPtr.heap_put_present _ _ _ _ old hf, hown, if_pos rfl, h2]
      rw [h1] at hacc
      simp only [List.map_append, List.map_cons] at hacc ⊢
      have := Heap.accounted_replace b0 _ _ _ old _ hacc
      simpa [Heap.delete, hold, Heap.new, Heap.write] using this

theorem CLookupAny.HeapInv_call {T : Type} [Inhabited T] (b0 : Nat)
    (st : CLookupAny T × Heap T) (hinv : CLookupAny.HeapInv b0 st) (c : CLookupAny.Call T) :
    CLookupAny.HeapInv b0 (CLookupAny.call st c) := by
  cases c with
  | put_ k v => exact CLookupAny.HeapInv_put b0 st hinv k v
  | exists_ k => exact hinv
  | get_ k =>
    simp only [CLookupAny.call]
    cases hf : UMap.find st.1.m_lookup_ptr.m_impl k with
    | none =>
      rw [CLookupAny.get_of_absent st.1 st.2 k hf]
      exact CLookupAny.HeapInv_put b0 st hinv k _
    | some p =>
      have hp : p ≠ NULL := (hinv.2.2.2.1 p (CLookupPtr.mem_values_of_find _ _ _ hf)).1
      rw [CLookupAny.get_of_present st.1 st.2 k p hf hp]
      exact hinv

theorem CLookupAny.HeapInv_run {T : Type} [Inhabited T] (b0 : Nat)
    (cs : List (CLookupAny.Call T)) (st : CLookupAny T × Heap T)
    (hinv : CLookupAny.HeapInv b0 st) : CLookupAny.HeapInv b0 (CLookupAny.run st cs) := by
  induction cs generalizing st with
  | nil => exact hinv
  | cons c cs ih => exact ih _ (CLookupAny.HeapInv_call b0 st hinv c)

theorem CLookupAny.Inv_run {T : Type} [Inhabited T] (cs : List (CLookupAny.Call T))
    (st : CLookupAny T × Heap T) (hinv : CLookupAny.Inv st) :
    CLookupAny.Inv (CLookupAny.run st cs) := by
  induction cs generalizing st with
  | nil => exact hinv
  | cons c cs ih => exact ih _ (CLookupAny.Inv_call st hinv c)


/-- C17: heap invariant of `CLookupAny`. Let the store be constructed in a heap in
which every released address had been handed out, and let `st` be the state after any
sequence of `put`, `get` and `exists` calls. Then every key holds a non-null pointer
that has not been released and points to a live object; the keys and the stored
pointers are pairwise distinct; every address handed out since the construction is
either stored and not released, or not stored and released exactly once; and the
destructor ends, releases the stored pointers, and leaves every address handed out
since the construction released exactly once. -/
theorem CLookupAny.heap_invariant {T : Type} [Inhabited T] (D : T) (h0 : Heap T)
    (hwf : ∀ a ∈ h0.freed, a ≤ h0.brk) (cs : List (CLookupAny.Call T))
    (st : CLookupAny T × Heap T) (hst : st = CLookupAny.run (CLookupAny.ctor D, h0) cs) :
    (∀ k p, UMap.find st.1.m_lookup_ptr.m_impl k = some p →
      p ≠ NULL ∧ p ∉ st.2.freed ∧ ∃ v, st.2.read p = some v) ∧
    (st.1.m_lookup_ptr.m_impl.map Prod.fst).Nodup ∧
    (st.1.m_lookup_ptr.m_impl.map Prod.snd).Nodup ∧
    (∀ a, h0.brk < a → a ≤ st.2.brk →
      (a ∈ st.1.m_lookup_ptr.m_impl.map Prod.snd ∧ a ∉ st.2.freed) ∨
      (a ∉ st.1.m_lookup_ptr.m_impl.map Prod.snd ∧ st.2.freed.count a = 1)) ∧
    (∀ fuel, st.1.m_lookup_ptr.m_impl.length < fuel →
      ∃ h1, st.1.dtor fuel st.2 = some h1 ∧
        h1.freed = st.2.freed ++ st.1.m_lookup_ptr.m_impl.map Prod.snd ∧
        ∀ a, h0.brk < a → a ≤ st.2.brk → h1.freed.count a = 1) := by
  have hH : CLookupAny.HeapInv h0.brk st := by
    rw [hst]
    exact CLookupAny.HeapInv_run h0.brk cs _ (CLookupAny.HeapInv_ctor D h0 hwf)
  have hI : CLookupAny.Inv st := by
    rw [hst]
    exact CLookupAny.Inv_run cs _ (CLookupAny.Inv_ctor D h0)
  obtain ⟨hown, hkeys, hnd, hv, hf, hall, hb⟩ := hH
  have hcases : ∀ a, h0.brk < a → a ≤ st.2.brk →
      (a ∈ st.1.m_lookup_ptr.m_impl.map Prod.snd ∧ a ∉ st.2.freed) ∨
      (a ∉ st.1.m_lookup_ptr.m_impl.map Prod.snd ∧ st.2.freed.count a = 1) := by
    intro a h1 h2
    by_cases hm : a ∈ st.1.m_lookup_ptr.m_impl.map Prod.snd
    · exact Or.inl ⟨hm, (hv a hm).2.2.2⟩
    · rcases hall a h1 h2 with h3 | h3
      · exact absurd h3 hm
      · exact Or.inr ⟨hm, h3⟩
  refine ⟨?_, hkeys, hnd, hcases, ?_⟩
  · intro k p hfind
    obtain ⟨a1, _, _, a4⟩ := hv p (CLookupPtr.mem_values_of_find _ _ _ hfind)
    exact ⟨a1, a4, (hI.1 k p hfind).2.2⟩
  · intro fuel hfuel
    have hfilter : (st.1.m_lookup_ptr.m_impl.map Prod.snd).filter (fun p => p ≠ NULL) =
        st.1.m_lookup_ptr.m_impl.map Prod.snd := by
      apply List.filter_eq_self.mpr
      intro p hp
      simpa using (hv p hp).1
    have hfreed : ((st.1.m_lookup_ptr.m_impl.map Prod.snd).foldl Heap.delete st.2).freed =
        st.2.freed ++ st.1.m_lookup_ptr.m_impl.map Prod.snd := by
      rw [Heap.freed_foldl_delete, hfilter]
    refine ⟨_, CLookupPtr.dtor_owning fuel st.1.m_lookup_ptr st.2 hown hfuel, hfreed, ?_⟩
    intro a h1 h2
    rw [hfreed, List.count_append]
    rcases hcases a h1 h2 with ⟨h3, h4⟩ | ⟨h3, h4⟩
    · rw [List.count_eq_zero_of_not_mem h4, List.count_eq_one_of_mem hnd h3]
    · rw [h4, List.count_eq_zero_of_not_mem h3]

/-- Witness for C17: default `7`, an empty heap, and the calls `put(1, 5)`, `get(2)`,
`put(1, 6)`, after which the destructor leaves the log `[1, 3, 2]`. -/
theorem CLookupAny.heap_invariant_witness :
    ∃ h1, (CLookupAny.run (CLookupAny.ctor (7 : Nat), ⟨0, [], []⟩)
        [CLookupAny.Call.put_ 1 5, CLookupAny.Call.get_ 2, CLookupAny.Call.put_ 1 6]).1.dtor 3
      (CLookupAny.run (CLookupAny.ctor (7 : Nat), ⟨0, [], []⟩)
        [CLookupAny.Call.put_ 1 5, CLookupAny.Call.get_ 2, CLookupAny.Call.put_ 1 6]).2
        = some h1 ∧
      h1.freed = [1, 3, 2] :=
  have h := (CLookupAny.heap_invariant (7 : Nat) ⟨0, [], []⟩ (by decide)
    [CLookupAny.Call.put_ 1 5, CLookupAny.Call.get_ 2, CLookupAny.Call.put_ 1 6]
    _ rfl).2.2.2.2 3 (by decide)
  h.imp (fun _ hh => ⟨hh.1, hh.2.1⟩)

/-! ## C18 -/

theorem CLookupPtr.find_of_mem_nodup (m : CLOOKUP_MAP_VOID) (k v : Ptr)
    (hnd : (m.map Prod.fst).Nodup) (hm : (k, v) ∈ m) : UMap.find m k = some v := by
  induction m with
  | nil => cases hm
  | cons e rest ih =>
    obtain ⟨k0, v0⟩ := e
    simp only [List.map_cons, List.nodup_cons] at hnd
    rcases List.mem_cons.mp hm with h1 | h1
    · have hk : k0 = k := (congrArg Prod.fst h1).symm
      have hv : v0 = v := (congrArg Prod.snd h1).symm
      simp [UMap.find, hk, hv]
    · have hk : ¬ k0 = k := by
        intro e
        apply hnd.1
        rw [e]
        exact List.mem_map.mpr ⟨(k, v), h1, rfl⟩
      simp only [UMap.find, hk, if_false]
      exact ih hnd.2 h1

theorem CLookupAny.nodup_keys_any_call {T : Type} [Inhabited T] (st : CLookupAny T × Heap T)
    (c : CLookupAny.Call T) (hnd : (st.1.m_lookup_ptr.m_impl.map Prod.fst).Nodup) :
    ((CLookupAny.call st c).1.m_lookup_ptr.m_impl.map Prod.fst).Nodup := by
  cases c with
  | put_ k v =>
    simp only [CLookupAny.call, CLookupAny.put_eq]
    rw [CLookupPtr.impl_put]
    exact CLookupPtr.nodup_keys_assign _ _ _ hnd
  | exists_ k => exact hnd
  | get_ k =>
    simp only [CLookupAny.call, CLookupAny.get]
    split
    · simp only
      rw [CLookupPtr.impl_put]
      exact CLookupPtr.nodup_keys_assign _ _ _ hnd
    · exact hnd

theorem CLookupAny.nodup_keys_any_run {T : Type} [Inhabited T] (cs : List (CLookupAny.Call T))
    (st : CLookupAny T × Heap T) (hnd : (st.1.m_lookup_ptr.m_impl.map Prod.fst).Nodup) :
    ((CLookupAny.run st cs).1.m_lookup_ptr.m_impl.map Prod.fst).Nodup := by
  induction cs generalizing st with
  | nil => exact hnd
  | cons c cs ih => exact ih _ (CLookupAny.nodup_keys_any_call st c hnd)

theorem CLookupAny.CIterator.base_advance_any {T : Type} (h : Heap T) (j : Nat)
    (it : CLookupAny.CIterator T) :
    (advance h j it).toBase = it.toBase.advance j ∧
    (advance h j it).m_default_value = it.m_default_value := by
  induction j generalizing it with
  | zero => exact ⟨rfl, rfl⟩
  | succ j ih => exact ih _


/-- C18: iteration over a `CLookupAny` yields stored copies, never the default
fallback. Let `st` be the state after any sequence of `put`, `get` and `exists` calls
on a new store with default `D`, `it` an iterator on it after `j` calls of `next`,
and `r` the outcome of the next call. `r` returns true exactly when `j` is below the
number of entries. If it returns true, the pointer the underlying iterator passed is
non-null, the key output is present in the store, and the value output is the copy
of the stored object, the one `get` returns for that key. If it returns false, the
underlying iterator passed `NULL`, the key output is `NULL` and the value output is
the default `D`. -/
theorem CLookupAny.iteration_yields_stored {T : Type} [Inhabited T] (D : T) (h0 : Heap T)
    (cs : List (CLookupAny.Call T)) (j : Nat)
    (st : CLookupAny T × Heap T) (hst : st = CLookupAny.run (CLookupAny.ctor D, h0) cs)
    (it : CLookupAny.CIterator T)
    (hit : it = CLookupAny.CIterator.advance st.2 j (CLookupAny.CIterator.ctor st.1))
    (r : Bool × Ptr × Option T × CLookupAny.CIterator T) (hr : r = it.next st.2) :
    r.1 = decide (j < st.1.m_lookup_ptr.m_impl.length) ∧
    (r.1 = true →
      it.toBase.next.2.2.1 ≠ NULL ∧
      st.1.exists r.2.1 = true ∧
      r.2.2.1 = (st.1.get st.2 r.2.1).1 ∧
      ∃ v, r.2.2.1 = some v) ∧
    (r.1 = false →
      it.toBase.next.2.2.1 = NULL ∧ r.2.1 = NULL ∧ r.2.2.1 = some D) := by
  have hI : CLookupAny.Inv st := by
    rw [hst]
    exact CLookupAny.Inv_run cs _ (CLookupAny.Inv_ctor D h0)
  have hkeys : (st.1.m_lookup_ptr.m_impl.map Prod.fst).Nodup := by
    rw [hst]
    exact CLookupAny.nodup_keys_any_run cs _ List.nodup_nil
  have hd : st.1.m_default_value = D := by
    rw [hst, CLookupAny.default_run]
    rfl
  have hbase : it.toBase = (CLookupPtr.CIterator.ctor st.1.m_lookup_ptr).advance j := by
    rw [hit]
    exact (CLookupAny.CIterator.base_advance_any st.2 j _).1
  have hdef : it.m_default_value = D := by
    rw [hit, (CLookupAny.CIterator.base_advance_any st.2 j _).2]
    exact hd
  have hr1 : r.1 = it.toBase.next.1 := by rw [hr]; rfl
  have hr2 : r.2.1 = it.toBase.next.2.1 := by rw [hr]; rfl
  have hr3 : r.2.2.1 = if it.toBase.next.2.2.1 ≠ NULL then st.2.read it.toBase.next.2.2.1
      else some it.m_default_value := by rw [hr]; rfl
  by_cases hj : j < st.1.m_lookup_ptr.m_impl.length
  · have hn := CLookupPtr.CIterator.next_advance_lt_ptr j st.1.m_lookup_ptr
      st.1.m_lookup_ptr.m_impl hj
    have hn2 : (it.toBase.next.1, it.toBase.next.2.1, it.toBase.next.2.2.1) =
        (true, st.1.m_lookup_ptr.m_impl[j].1, st.1.m_lookup_ptr.m_impl[j].2) := by
      rw [hbase]
      exact hn
    simp only [Prod.mk.injEq] at hn2
    obtain ⟨n1, n2, n3⟩ := hn2
    have hfind : UMap.find st.1.m_lookup_ptr.m_impl st.1.m_lookup_ptr.m_impl[j].1 =
        some st.1.m_lookup_ptr.m_impl[j].2 :=
      CLookupPtr.find_of_mem_nodup _ _ _ hkeys (List.getElem_mem hj)
    obtain ⟨hnn, _, v, hv⟩ := hI.1 _ _ hfind
    have hval : r.2.2.1 = st.2.read st.1.m_lookup_ptr.m_impl[j].2 := by
      rw [hr3, n3, if_pos hnn]
    refine ⟨by rw [hr1, n1]; simp [hj], ?_, ?_⟩
    · intro _
      refine ⟨by rw [n3]; exact hnn, ?_, ?_, v, by rw [hval, hv]⟩
      · rw [hr2, n2]
        simp [CLookupAny.exists, CLookupPtr.exists, hfind]
      · rw [hr2, n2, CLookupAny.get_of_present st.1 st.2 _ _ hfind hnn]
        exact hval
    · intro hfalse
      rw [hr1, n1] at hfalse
      cases hfalse
  · have hn := CLookupPtr.CIterator.next_advance_ge_ptr j st.1.m_lookup_ptr
      st.1.m_lookup_ptr.m_impl (Nat.le_of_not_lt hj)
    have hn2 : (it.toBase.next.1, it.toBase.next.2.1, it.toBase.next.2.2.1) =
        (false, NULL, NULL) := by
      rw [hbase]
      exact hn
    simp only [Prod.mk.injEq] at hn2
    obtain ⟨n1, n2, n3⟩ := hn2
    refine ⟨by rw [hr1, n1]; simp [hj], ?_, ?_⟩
    · intro htrue
      rw [hr1, n1] at htrue
      cases htrue
    · intro _
      refine ⟨n3, by rw [hr2, n2], ?_⟩
      rw [hr3, n3, hdef]
      simp

/-- Witness for C18: default `7`, the calls `put(1, 5)`, `get(2)`, and the second
call of `next`, which yields key `2` with the materialised default. -/
theorem CLookupAny.iteration_yields_stored_witness :
    ((CLookupAny.CIterator.advance
        (CLookupAny.run (CLookupAny.ctor (7 : Nat), ⟨0, [], []⟩)
          [CLookupAny.Call.put_ 1 5, CLookupAny.Call.get_ 2]).2 1
        (CLookupAny.CIterator.ctor
          (CLookupAny.run (CLookupAny.ctor (7 : Nat), ⟨0, [], []⟩)
            [CLookupAny.Call.put_ 1 5, CLookupAny.Call.get_ 2]).1)).next
      (CLookupAny.run (CLookupAny.ctor (7 : Nat), ⟨0, [], []⟩)
        [CLookupAny.Call.put_ 1 5, CLookupAny.Call.get_ 2]).2).1 = decide (1 < 2) :=
  (CLookupAny.iteration_yields_stored (7 : Nat) ⟨0, [], []⟩
    [CLookupAny.Call.put_ 1 5, CLookupAny.Call.get_ 2] 1 _ rfl _ rfl _ rfl).1

end CLookup
